import Mathlib

/-!
# BitPAl: bit-parallel similarity score (`src/BitPAl.c`)

A shallow embedding of `bitwise_alignment` and proofs about it.

Conventions of the embedding.

* An `unsigned long long` is a natural number below `2 ^ 64`; every operation
  that can leave that range in C (`+`, `<<`) is followed by `% 2 ^ 64`, and
  `~x` is `all_ones ^^^ x`.
* A C string is the list of its `char` values before the terminating NUL, each
  taken as the `int` it promotes to. `matchvec[(*iterate)]` indexes a block of
  256 words with that value, so an access is only defined for values in
  `0..255`; an access outside the block makes the whole call undefined, which
  the embedding reports as `none`. Where `char` is signed its values are
  `-128..127`, and a byte `128..255` of the input is a negative value; where
  `char` is unsigned its values are `0..255`. The source comments that the
  first string is assumed to be ASCII.
* The `int` variables `i`, `n`, `m` and `score` are integers without
  wrap-around. This is the arithmetic of the code when both strings are
  shorter than `2 ^ 31` characters and the first has at most 64: `n` and `m`
  are then the two lengths and every value taken by `score` lies between
  `-2 ^ 31` and `0`. For a longer string the `int` of the code wraps and the
  embedding does not follow it.
  In `score += e` the operand `e` is an `unsigned long long` ending in `- 1`;
  converting the sum back to `int` gives `score + (e - 1)` as integers as long
  as the score fits an `int`, and that is what the embedding computes.
  `addAssignMachine_eq` relates the two readings.
* `x >> i` is `x >>> i` on naturals, the shift of C for `i < 64`. For
  `i ≥ 64`, reached by the extraction loop when the first string has more
  than 64 characters, C leaves the shift undefined, and the value the
  embedding computes for such a call has no meaning.
* `calloc` is taken to succeed, and `free` has no effect on the result.
-/

namespace BitPAl

/-! ## The program -/

/-- The constant `wordsize` of the source. -/
def wordsize : Nat := 64

/-- The local `all_ones = ~0x0000000000000000`. -/
def all_ones : Nat := 2 ^ 64 - 1

/-- Bitwise complement `~x` of a 64-bit word. -/
def bnot (x : Nat) : Nat := all_ones ^^^ x

/-- Left shift by one of a 64-bit word, `x << 1`. -/
def shl1 (x : Nat) : Nat := (x <<< 1) % 2 ^ 64

/-- The table `matchvec`: 256 words, indexed `0..255`. -/
abbrev Matchvec := Nat → Nat

/-- The block returned by `calloc(256, sizeof(unsigned long long))`. -/
def calloc256 : Matchvec := fun _ => 0

/-- The index used by `matchvec[c]` for a `char` value `c`, when it lies inside the
block of 256 words. -/
def matchvecIndex (c : Int) : Option Nat :=
  if 0 ≤ c ∧ c < 256 then some c.toNat else none

/-- The encoding loop
`for (i = 0; i < n; ++i) { matchvec[(*iterate)] |= bitmask; ++iterate; bitmask <<= 1; }`
run over the remaining characters of `s1`. -/
def encodeLoop : List Int → Matchvec → Nat → Option Matchvec
  | [], matchvec, _ => some matchvec
  | c :: rest, matchvec, bitmask =>
    match matchvecIndex c with
    | none => none
    | some k =>
      encodeLoop rest (fun s => if s = k then matchvec s ||| bitmask else matchvec s)
        (shl1 bitmask)

/-- The horizontal state `(DHpos1, DHzero, DHneg1)` carried by the recursion loop. -/
structure DeltaState where
  pos1 : Nat
  zero : Nat
  neg1 : Nat
  deriving DecidableEq, Repr

/-- Every word assigned by one iteration of the recursion loop. -/
structure StepVars where
  Matches : Nat
  NotMatches : Nat
  INITpos1s : Nat
  DVpos1shift : Nat
  RemainDHneg1 : Nat
  DVpos1shiftorMatch : Nat
  DVnot1to1shiftorMatch : Nat
  DVzeroshift : Nat
  DVneg1shift : Nat
  DHpos1orMatch : Nat
  DHneg1tozero : Nat
  DHzero : Nat
  DHpos1 : Nat
  DHneg1 : Nat
  deriving DecidableEq, Repr

/-- The body of the recursion loop, from the horizontal state at its entry and the word
`Matches = matchvec[*iterate]` (lines 116-146). -/
def loopBody (DH : DeltaState) (Matches : Nat) : StepVars :=
  let NotMatches := bnot Matches
  let INITpos1s := DH.neg1 &&& Matches
  let DVpos1shift := (((INITpos1s + DH.neg1) % 2 ^ 64) ^^^ DH.neg1) ^^^ INITpos1s
  let RemainDHneg1 := DH.neg1 ^^^ (DVpos1shift >>> 1)
  let DVpos1shiftorMatch := DVpos1shift ||| Matches
  let DVnot1to1shiftorMatch := bnot DVpos1shiftorMatch
  let DVzeroshift :=
    shl1 ((DH.zero &&& DVpos1shiftorMatch) ||| (DH.neg1 &&& DVnot1to1shiftorMatch))
  let DVneg1shift := all_ones ^^^ (DVpos1shift ||| DVzeroshift)
  let DHpos1orMatch := DH.pos1 ||| Matches
  let DHneg1tozero := all_ones ^^^ DHpos1orMatch
  let DHzero := (DVzeroshift &&& DHpos1orMatch) ||| (DVneg1shift &&& DHneg1tozero)
  let DHpos1 := DVneg1shift &&& DHpos1orMatch
  let DHneg1 := all_ones ^^^ (DHzero ||| DHpos1)
  { Matches := Matches, NotMatches := NotMatches, INITpos1s := INITpos1s,
    DVpos1shift := DVpos1shift, RemainDHneg1 := RemainDHneg1,
    DVpos1shiftorMatch := DVpos1shiftorMatch,
    DVnot1to1shiftorMatch := DVnot1to1shiftorMatch, DVzeroshift := DVzeroshift,
    DVneg1shift := DVneg1shift, DHpos1orMatch := DHpos1orMatch,
    DHneg1tozero := DHneg1tozero, DHzero := DHzero, DHpos1 := DHpos1, DHneg1 := DHneg1 }

/-- The horizontal state left by one iteration of the recursion loop. -/
def recursionStep (DH : DeltaState) (Matches : Nat) : DeltaState :=
  let v := loopBody DH Matches
  { pos1 := v.DHpos1, zero := v.DHzero, neg1 := v.DHneg1 }

/-- The transient vertical state `(DVpos1shift, DVzeroshift, DVneg1shift)` of one
iteration. -/
def verticalState (DH : DeltaState) (Matches : Nat) : DeltaState :=
  let v := loopBody DH Matches
  { pos1 := v.DVpos1shift, zero := v.DVzeroshift, neg1 := v.DVneg1shift }

/-- The top row: `DHneg1 = all_ones; DHzero = DHpos1 = 0;`. -/
def initDH : DeltaState := { pos1 := 0, zero := 0, neg1 := all_ones }

/-- The recursion loop `for (i = 0, iterate = s2; i < m; ++i, ++iterate)` run over the
remaining characters of `s2`. -/
def recursionLoop (matchvec : Matchvec) : List Int → DeltaState → Option DeltaState
  | [], DH => some DH
  | c :: rest, DH =>
    match matchvecIndex c with
    | none => none
    | some k => recursionLoop matchvec rest (recursionStep DH (matchvec k))

/-- The extraction loop `for (i = 0; i < n; i++)` with `k` iterations left, at index `i`. -/
def scoreLoop (add1 add2 add4 : Nat) : Nat → Nat → Nat → Int → Int
  | 0, _, _, score => score
  | k + 1, i, bitmask, score =>
    scoreLoop add1 add2 add4 k (i + 1) (shl1 bitmask)
      (score + ((((add1 &&& bitmask) >>> i) * 1 + ((add2 &&& bitmask) >>> i) * 2
        + ((add4 &&& bitmask) >>> i) * 4 : Nat) - 1 : Int))

/-- The statement `score += x * 1 + y * 2 + z * 4 - 1` as the machine runs it: the right
side is an `unsigned long long`, `score` is converted to that type, the sum is taken modulo
`2 ^ 64` and converted back to a 32-bit `int`. -/
def addAssignMachine (score : Int) (x y z : Nat) : Int :=
  Int.bmod ((score + (((x * 1 + y * 2 + z * 4 + (2 ^ 64 - 1)) % 2 ^ 64 : Nat) : Int)) % 2 ^ 64)
    (2 ^ 32)

/-- The function `bitwise_alignment(s1, s2)`. -/
def bitwise_alignment (s1 s2 : List Int) : Option Int :=
  let n := s1.length
  let m := s2.length
  match encodeLoop s1 calloc256 1 with
  | none => none
  | some matchvec =>
    match recursionLoop matchvec s2 initDH with
    | none => none
    | some DH => some (scoreLoop DH.zero DH.pos1 0 n 0 1 (-1 * (m : Int)))

/-! ## Notions used to state the properties -/

/-- Carry into bit `i` of the sum `x + y`. -/
def carryIn (x y : Nat) : Nat → Bool
  | 0 => false
  | i + 1 => (x.testBit i && y.testBit i) || ((x.testBit i || y.testBit i) && carryIn x y i)

/-- Score of aligning one character with another: match `0`, mismatch `-1`. -/
def subst (x y : Int) : Int := if x = y then 0 else -1

/-- The scores of `x :: xs` against every second sequence, from the scores `prev` of `xs`:
against the empty sequence one more gap, and otherwise the best of aligning the two first
characters, leaving `x` unaligned, or leaving `y` unaligned. -/
def alignRow (x : Int) (prev : List Int → Int) : List Int → Int
  | [] => prev [] - 1
  | y :: ys =>
    max (prev ys + subst x y) (max (prev (y :: ys) - 1) (alignRow x prev ys - 1))

/-- Optimal global alignment score under match `0`, mismatch `-1`, gap `-1`, by the
cell-by-cell recurrence: `alignScore [] ys = -|ys|`, `alignScore xs [] = -|xs|` and
`alignScore (x :: xs) (y :: ys)` is the maximum of `alignScore xs ys + subst x y`,
`alignScore xs (y :: ys) - 1` and `alignScore (x :: xs) ys - 1`. -/
def alignScore : List Int → List Int → Int
  | [] => fun ys => -(ys.length : Int)
  | x :: xs => alignRow x (alignScore xs)

/-- The delta encoded by a `pos1` bit and a `zero` bit: `+1`, `0` or `-1`. -/
def dec (p z : Bool) : Int := if p then 1 else if z then 0 else -1

/-- The delta decoded at bit `i` of a state. -/
def delta (S : DeltaState) (i : Nat) : Int := dec (S.pos1.testBit i) (S.zero.testBit i)

/-- The three words of a state partition the all-ones word. -/
def Partition (S : DeltaState) : Prop :=
  S.pos1 ||| S.zero ||| S.neg1 = all_ones ∧ S.pos1 &&& S.zero = 0
    ∧ S.pos1 &&& S.neg1 = 0 ∧ S.zero &&& S.neg1 = 0

instance (S : DeltaState) : Decidable (Partition S) := by
  unfold Partition; infer_instance

/-- The value of `bitmask` after `j` shifts of the initial `1`. -/
def bitmaskAt (j : Nat) : Nat := 2 ^ j % 2 ^ 64

/-- A `char` value that indexes inside the block of 256 words. -/
def ValidChar (c : Int) : Prop := 0 ≤ c ∧ c < 256

instance (c : Int) : Decidable (ValidChar c) := by unfold ValidChar; infer_instance

/-- Number of positions at which two sequences of equal length hold different characters. -/
def mismatches (s1 s2 : List Int) : Nat :=
  ((s1.zip s2).filter (fun q => decide (q.1 ≠ q.2))).length

/-- The horizontal state encodes the steps along row `pre` of the scoring matrix of `a`. -/
def RowInv (a pre : List Int) (DH : DeltaState) : Prop :=
  Partition DH ∧ ∀ i, i < a.length →
    delta DH i = alignScore (a.take (i + 1)) pre - alignScore (a.take i) pre

/-- The value of a `char` that holds the byte `b`: the byte itself where `char` is unsigned,
and `b - 256` for the bytes `128..255` where `char` is signed (`charSigned`). The signedness
of `char` is fixed by the platform, not by the source. -/
def charOfByte (charSigned : Bool) (b : Nat) : Int :=
  if charSigned = true ∧ 128 ≤ b then (b : Int) - 256 else (b : Int)

/-- The `char` values of the string whose bytes are `bs`. -/
def charsOf (charSigned : Bool) (bs : List Nat) : List Int := bs.map (charOfByte charSigned)

/-- Every byte of `bs` is in `0..255` and, where `char` is signed, in `0..127`: the bytes
whose `char` value indexes inside the table. -/
def Indexable (charSigned : Bool) (bs : List Nat) : Prop :=
  ∀ b ∈ bs, b < 256 ∧ (charSigned = true → b < 128)

instance (charSigned : Bool) (bs : List Nat) : Decidable (Indexable charSigned bs) := by
  unfold Indexable; infer_instance

/-- Two words agree on their low `k` bits. -/
def AgreeLow (k x y : Nat) : Prop := x % 2 ^ k = y % 2 ^ k

instance (k x y : Nat) : Decidable (AgreeLow k x y) := by unfold AgreeLow; infer_instance

/-- Two states agree on the low `k` bits of each of their three planes. -/
def AgreeLowState (k : Nat) (H H' : DeltaState) : Prop :=
  AgreeLow k H.pos1 H'.pos1 ∧ AgreeLow k H.zero H'.zero ∧ AgreeLow k H.neg1 H'.neg1

instance (k : Nat) (H H' : DeltaState) : Decidable (AgreeLowState k H H') := by
  unfold AgreeLowState; infer_instance

/-- The score extracted from a final horizontal state, as `bitwise_alignment` does it:
`add1 = DHzero`, `add2 = DHpos1`, `add4 = 0`, `score = -1 * m`, then the extraction loop. -/
def extractScore (n m : Nat) (DH : DeltaState) : Int :=
  scoreLoop DH.zero DH.pos1 0 n 0 1 (-1 * (m : Int))

/-- The step of the specification (section 4.2), written from its formulas, with `W = 64`:
`seedCarry`, `vPos1`, `vPos1orMatch`, `vNotPos1orMatch`, `vZero`, `vNeg1`, `hPos1orMatch`,
`hNeg1toZero`, `newZero`, `newPos1`, `newNeg1`. The first formula of the section,
`notMatches = ~matches`, is used by none of the others and is left out. -/
def specStep (H : DeltaState) (matchWord : Nat) : DeltaState :=
  let seedCarry := H.neg1 &&& matchWord
  let vPos1 := (((seedCarry + H.neg1) % 2 ^ 64) ^^^ H.neg1) ^^^ seedCarry
  let vPos1orMatch := vPos1 ||| matchWord
  let vNotPos1orMatch := bnot vPos1orMatch
  let vZero := shl1 ((H.zero &&& vPos1orMatch) ||| (H.neg1 &&& vNotPos1orMatch))
  let vNeg1 := all_ones ^^^ (vPos1 ||| vZero)
  let hPos1orMatch := H.pos1 ||| matchWord
  let hNeg1toZero := all_ones ^^^ hPos1orMatch
  let newZero := (vZero &&& hPos1orMatch) ||| (vNeg1 &&& hNeg1toZero)
  let newPos1 := vNeg1 &&& hPos1orMatch
  let newNeg1 := all_ones ^^^ (newZero ||| newPos1)
  { pos1 := newPos1, zero := newZero, neg1 := newNeg1 }

/-- The initial horizontal state of the specification: `neg1 = ALL, zero = 0, pos1 = 0`. -/
def specInit : DeltaState := { pos1 := 0, zero := 0, neg1 := all_ones }

/-- The operation `run(matchTable, seq2)` of the specification: the fold of `specStep` over
the symbols of `seq2`, left to right, from `specInit`. -/
def specRun (matchTable : Nat → Nat) (seq2 : List Nat) : DeltaState :=
  seq2.foldl (fun H c => specStep H (matchTable c)) specInit

/-- The loop body with the assignment `RemainDHneg1 = DHneg1 ^ (DVpos1shift >> 1)` removed:
the variable keeps the value `r` it had before. -/
def loopBodyNoRemain (r : Nat) (DH : DeltaState) (Matches : Nat) : StepVars :=
  let NotMatches := bnot Matches
  let INITpos1s := DH.neg1 &&& Matches
  let DVpos1shift := (((INITpos1s + DH.neg1) % 2 ^ 64) ^^^ DH.neg1) ^^^ INITpos1s
  let DVpos1shiftorMatch := DVpos1shift ||| Matches
  let DVnot1to1shiftorMatch := bnot DVpos1shiftorMatch
  let DVzeroshift :=
    shl1 ((DH.zero &&& DVpos1shiftorMatch) ||| (DH.neg1 &&& DVnot1to1shiftorMatch))
  let DVneg1shift := all_ones ^^^ (DVpos1shift ||| DVzeroshift)
  let DHpos1orMatch := DH.pos1 ||| Matches
  let DHneg1tozero := all_ones ^^^ DHpos1orMatch
  let DHzero := (DVzeroshift &&& DHpos1orMatch) ||| (DVneg1shift &&& DHneg1tozero)
  let DHpos1 := DVneg1shift &&& DHpos1orMatch
  let DHneg1 := all_ones ^^^ (DHzero ||| DHpos1)
  { Matches := Matches, NotMatches := NotMatches, INITpos1s := INITpos1s,
    DVpos1shift := DVpos1shift, RemainDHneg1 := r,
    DVpos1shiftorMatch := DVpos1shiftorMatch,
    DVnot1to1shiftorMatch := DVnot1to1shiftorMatch, DVzeroshift := DVzeroshift,
    DVneg1shift := DVneg1shift, DHpos1orMatch := DHpos1orMatch,
    DHneg1tozero := DHneg1tozero, DHzero := DHzero, DHpos1 := DHpos1, DHneg1 := DHneg1 }

/-- The recursion loop run with `loopBodyNoRemain`. -/
def recursionLoopNoRemain (r : Nat) (matchvec : Matchvec) :
    List Int → DeltaState → Option DeltaState
  | [], DH => some DH
  | c :: rest, DH =>
    match matchvecIndex c with
    | none => none
    | some k =>
      let v := loopBodyNoRemain r DH (matchvec k)
      recursionLoopNoRemain r matchvec rest
        { pos1 := v.DHpos1, zero := v.DHzero, neg1 := v.DHneg1 }

/-- The function `bitwise_alignment` with the assignment to `RemainDHneg1` removed. -/
def bitwise_alignmentNoRemain (r : Nat) (s1 s2 : List Int) : Option Int :=
  let n := s1.length
  let m := s2.length
  match encodeLoop s1 calloc256 1 with
  | none => none
  | some matchvec =>
    match recursionLoopNoRemain r matchvec s2 initDH with
    | none => none
    | some DH => some (scoreLoop DH.zero DH.pos1 0 n 0 1 (-1 * (m : Int)))

/-! ## Machine arithmetic of the score update -/

/-- While the score fits an `int`, the machine's `score += ...` is the integer sum. -/
theorem addAssignMachine_eq (score : Int) (x y z : Nat)
    (hlo : -2 ^ 31 ≤ score + ((x * 1 + y * 2 + z * 4 : Nat) - 1 : Int))
    (hhi : score + ((x * 1 + y * 2 + z * 4 : Nat) - 1 : Int) < 2 ^ 31) :
    addAssignMachine score x y z = score + ((x * 1 + y * 2 + z * 4 : Nat) - 1 : Int) := by
  unfold addAssignMachine Int.bmod
  push_cast at *
  split_ifs <;> omega

/-! ## Bit-level facts about one iteration -/

theorem carryIn_eq_carry (x y : Nat) : ∀ i, i ≤ 64 →
    carryIn x y i = BitVec.carry i (BitVec.ofNat 64 x) (BitVec.ofNat 64 y) false
  | 0, _ => by simp [carryIn]
  | i + 1, h => by
    have hi : i < 64 := by omega
    rw [carryIn, carryIn_eq_carry x y i (by omega), BitVec.carry_succ]
    simp only [BitVec.getLsbD_ofNat, hi, decide_True, Bool.true_and, Bool.atLeastTwo]
    cases x.testBit i <;> cases y.testBit i <;> simp

theorem testBit_add_mod (x y i : Nat) (hi : i < 64) :
    ((x + y) % 2 ^ 64).testBit i = (x.testBit i ^^ (y.testBit i ^^ carryIn x y i)) := by
  have h := BitVec.getLsbD_add hi (BitVec.ofNat 64 x) (BitVec.ofNat 64 y)
  rw [← carryIn_eq_carry x y i (by omega)] at h
  simp only [BitVec.getLsbD_ofNat, hi, decide_True, Bool.true_and] at h
  rw [← h]
  simp [BitVec.getLsbD, BitVec.toNat_add]

theorem testBit_all_ones (i : Nat) : all_ones.testBit i = decide (i < 64) := by
  unfold all_ones
  exact Nat.testBit_two_pow_sub_one 64 i

theorem testBit_shl1_zero (x : Nat) : (shl1 x).testBit 0 = false := by
  unfold shl1
  rw [Nat.testBit_mod_two_pow, Nat.testBit_shiftLeft]
  simp

theorem testBit_shl1_succ (x i : Nat) :
    (shl1 x).testBit (i + 1) = (decide (i + 1 < 64) && x.testBit i) := by
  unfold shl1
  rw [Nat.testBit_mod_two_pow, Nat.testBit_shiftLeft]
  simp

theorem testBit_of_lt_word {x i : Nat} (hx : x < 2 ^ 64) (hi : 64 ≤ i) :
    x.testBit i = false :=
  Nat.testBit_lt_two_pow (lt_of_lt_of_le hx (Nat.pow_le_pow_right (by decide) hi))

theorem lt_word_of_testBit {x : Nat} (h : ∀ i, 64 ≤ i → x.testBit i = false) : x < 2 ^ 64 :=
  Nat.lt_pow_two_of_testBit x h

theorem shl1_lt (x : Nat) : shl1 x < 2 ^ 64 := Nat.mod_lt _ (by decide)

/-- Below bit 64, `DVpos1shift` is the carry vector of `INITpos1s + DHneg1`. -/
theorem DVpos1shift_testBit (DH : DeltaState) (M i : Nat) (hi : i < 64) :
    (loopBody DH M).DVpos1shift.testBit i = carryIn (DH.neg1 &&& M) DH.neg1 i := by
  simp only [loopBody, Nat.testBit_xor, testBit_add_mod _ _ _ hi, Nat.testBit_and]
  cases DH.neg1.testBit i <;> cases M.testBit i <;> simp

theorem DVpos1shift_zero (DH : DeltaState) (M : Nat) :
    (loopBody DH M).DVpos1shift.testBit 0 = false := by
  rw [DVpos1shift_testBit DH M 0 (by decide)]; rfl

theorem DVpos1shift_succ (DH : DeltaState) (M i : Nat) (hi : i + 1 < 64) :
    (loopBody DH M).DVpos1shift.testBit (i + 1)
      = (DH.neg1.testBit i && (M.testBit i || (loopBody DH M).DVpos1shift.testBit i)) := by
  rw [DVpos1shift_testBit DH M (i + 1) hi, DVpos1shift_testBit DH M i (by omega), carryIn]
  simp only [Nat.testBit_and]
  cases DH.neg1.testBit i <;> cases M.testBit i <;> simp

theorem DVzeroshift_zero (DH : DeltaState) (M : Nat) :
    (loopBody DH M).DVzeroshift.testBit 0 = false := by
  simp only [loopBody, testBit_shl1_zero]

theorem DVzeroshift_succ (DH : DeltaState) (M i : Nat) (hi : i + 1 < 64) :
    (loopBody DH M).DVzeroshift.testBit (i + 1)
      = ((DH.zero.testBit i
            && ((loopBody DH M).DVpos1shift.testBit i || M.testBit i))
          || (DH.neg1.testBit i
            && !((loopBody DH M).DVpos1shift.testBit i || M.testBit i))) := by
  have h64 : i < 64 := by omega
  simp only [loopBody, testBit_shl1_succ, bnot, Nat.testBit_or, Nat.testBit_and,
    Nat.testBit_xor, testBit_all_ones, hi, h64, decide_True, Bool.true_and, Bool.true_xor]

theorem DVneg1shift_testBit (DH : DeltaState) (M i : Nat) (hi : i < 64) :
    (loopBody DH M).DVneg1shift.testBit i
      = !((loopBody DH M).DVpos1shift.testBit i || (loopBody DH M).DVzeroshift.testBit i) := by
  simp only [loopBody, Nat.testBit_xor, Nat.testBit_or, testBit_all_ones, hi, decide_True,
    Bool.true_xor]

theorem DHzero_testBit (DH : DeltaState) (M i : Nat) (hi : i < 64) :
    (loopBody DH M).DHzero.testBit i
      = (((loopBody DH M).DVzeroshift.testBit i && (DH.pos1.testBit i || M.testBit i))
          || ((loopBody DH M).DVneg1shift.testBit i
            && !(DH.pos1.testBit i || M.testBit i))) := by
  simp only [loopBody, Nat.testBit_xor, Nat.testBit_or, Nat.testBit_and, testBit_all_ones, hi,
    decide_True, Bool.true_xor]

theorem DHpos1_testBit (DH : DeltaState) (M i : Nat) :
    (loopBody DH M).DHpos1.testBit i
      = ((loopBody DH M).DVneg1shift.testBit i && (DH.pos1.testBit i || M.testBit i)) := by
  simp only [loopBody, Nat.testBit_or, Nat.testBit_and]

theorem DHneg1_testBit (DH : DeltaState) (M i : Nat) :
    (loopBody DH M).DHneg1.testBit i
      = (decide (i < 64)
          ^^ ((loopBody DH M).DHzero.testBit i || (loopBody DH M).DHpos1.testBit i)) := by
  simp only [loopBody, Nat.testBit_xor, Nat.testBit_or, testBit_all_ones]

/-! ## The cell-by-cell recurrence -/

theorem alignScore_nil_left (ys : List Int) : alignScore [] ys = -(ys.length : Int) := rfl

theorem alignScore_nil_right : ∀ xs : List Int, alignScore xs [] = -(xs.length : Int)
  | [] => rfl
  | x :: xs => by
    show alignScore xs [] - 1 = _
    rw [alignScore_nil_right xs]
    simp only [List.length_cons]; push_cast; ring

theorem alignScore_cons_cons (x y : Int) (xs ys : List Int) :
    alignScore (x :: xs) (y :: ys)
      = max (alignScore xs ys + subst x y)
          (max (alignScore xs (y :: ys) - 1) (alignScore (x :: xs) ys - 1)) := rfl

theorem alignScore_snoc_nil (x y : Int) : ∀ ys : List Int,
    alignScore [x] (ys ++ [y])
      = max (alignScore [] ys + subst x y)
          (max (alignScore [] (ys ++ [y]) - 1) (alignScore [x] ys - 1))
  | [] => by
    simp only [List.nil_append, alignScore_cons_cons, alignScore_nil_left, alignScore_nil_right,
      List.length_cons, List.length_nil]
  | y0 :: ys => by
    have ih := alignScore_snoc_nil x y ys
    simp only [List.cons_append, alignScore_cons_cons, alignScore_nil_left,
      List.length_cons, List.length_append, List.length_nil] at ih ⊢
    rw [ih]
    push_cast
    omega

theorem max_rearrange (a b c d e f g h k s t : Int) :
    max (max (a + t) (max (b - 1) (c - 1)) + s)
        (max (max (d + t) (max (e - 1) (f - 1)) - 1) (max (g + t) (max (h - 1) (k - 1)) - 1))
      = max (max (a + s) (max (d - 1) (g - 1)) + t)
          (max (max (b + s) (max (e - 1) (h - 1)) - 1)
            (max (c + s) (max (f - 1) (k - 1)) - 1)) := by
  simp only [← max_add_add_right, ← max_sub_sub_right]
  apply le_antisymm
  · refine max_le (max_le ?_ (max_le ?_ ?_)) (max_le (max_le ?_ (max_le ?_ ?_))
      (max_le ?_ (max_le ?_ ?_))) <;> simp only [le_max_iff] <;> omega
  · refine max_le (max_le ?_ (max_le ?_ ?_)) (max_le (max_le ?_ (max_le ?_ ?_))
      (max_le ?_ (max_le ?_ ?_))) <;> simp only [le_max_iff] <;> omega

/-- The recurrence read at the last characters instead of the first ones. -/
theorem alignScore_snoc_snoc (x y : Int) : ∀ xs ys : List Int,
    alignScore (xs ++ [x]) (ys ++ [y])
      = max (alignScore xs ys + subst x y)
          (max (alignScore xs (ys ++ [y]) - 1) (alignScore (xs ++ [x]) ys - 1))
  | [], ys => alignScore_snoc_nil x y ys
  | x0 :: xs, [] => by
    have ih := alignScore_snoc_snoc x y xs []
    simp only [List.cons_append, List.nil_append, alignScore_cons_cons, alignScore_nil_right,
      List.length_cons, List.length_append, List.length_nil] at ih ⊢
    rw [ih]
    push_cast
    omega
  | x0 :: xs, y0 :: ys => by
    have ih1 := alignScore_snoc_snoc x y xs ys
    have ih2 := alignScore_snoc_snoc x y xs (y0 :: ys)
    have ih3 := alignScore_snoc_snoc x y (x0 :: xs) ys
    simp only [List.cons_append, alignScore_cons_cons] at ih1 ih2 ih3 ⊢
    rw [ih1, ih2, ih3]
    exact max_rearrange _ _ _ _ _ _ _ _ _ _ _

/-- The score is the negated Levenshtein distance of Mathlib with unit costs. -/
theorem alignScore_eq_neg_levenshtein : ∀ xs ys : List Int,
    alignScore xs ys = -((levenshtein Levenshtein.defaultCost xs ys : Nat) : Int)
  | [], [] => by simp [alignScore_nil_left]
  | [], y :: ys => by
    have ih := alignScore_eq_neg_levenshtein [] ys
    rw [alignScore_nil_left] at ih ⊢
    have hc : (Levenshtein.defaultCost : Levenshtein.Cost Int Int Nat).insert y = 1 := rfl
    rw [levenshtein_nil_cons, hc]
    simp only [List.length_cons]
    push_cast
    omega
  | x :: xs, [] => by
    have ih := alignScore_eq_neg_levenshtein xs []
    rw [alignScore_nil_right] at ih ⊢
    have hc : (Levenshtein.defaultCost : Levenshtein.Cost Int Int Nat).delete x = 1 := rfl
    rw [levenshtein_cons_nil, hc]
    simp only [List.length_cons]
    push_cast
    omega
  | x :: xs, y :: ys => by
    have ih1 := alignScore_eq_neg_levenshtein xs ys
    have ih2 := alignScore_eq_neg_levenshtein xs (y :: ys)
    have ih3 := alignScore_eq_neg_levenshtein (x :: xs) ys
    rw [alignScore_cons_cons, levenshtein_cons_cons, ih1, ih2, ih3]
    simp only [Levenshtein.defaultCost, subst]
    split_ifs <;> push_cast <;> omega

/-! ## Partitions of the all-ones word -/

theorem partition_of_bits (S : DeltaState)
    (hp : ∀ i, 64 ≤ i → S.pos1.testBit i = false)
    (hz : ∀ i, 64 ≤ i → S.zero.testBit i = false)
    (hpz : ∀ i, i < 64 → (S.pos1.testBit i && S.zero.testBit i) = false)
    (hn : ∀ i, S.neg1.testBit i
      = (decide (i < 64) && !(S.pos1.testBit i || S.zero.testBit i))) :
    Partition S := by
  have key : ∀ i, (S.pos1.testBit i && S.zero.testBit i) = false
      ∧ (64 ≤ i → S.pos1.testBit i = false ∧ S.zero.testBit i = false) := by
    intro i
    rcases Nat.lt_or_ge i 64 with h | h
    · exact ⟨hpz i h, fun h2 => absurd h (by omega)⟩
    · exact ⟨by rw [hp i h]; rfl, fun _ => ⟨hp i h, hz i h⟩⟩
  refine ⟨?_, ?_, ?_, ?_⟩ <;> apply Nat.eq_of_testBit_eq <;> intro i <;>
    simp only [Nat.testBit_or, Nat.testBit_and, testBit_all_ones, Nat.zero_testBit, hn i] <;>
    obtain ⟨k1, k2⟩ := key i <;>
    rcases Nat.lt_or_ge i 64 with h | h
  all_goals first
    | (have h3 : ¬ i < 64 := by omega
       obtain ⟨k3, k4⟩ := k2 h
       simp [k3, k4, h3])
    | (revert k1
       try simp only [h, decide_True, Bool.true_and]
       cases S.pos1.testBit i <;> cases S.zero.testBit i <;> simp)

theorem Partition.bits {S : DeltaState} (h : Partition S) (i : Nat) :
    (S.pos1.testBit i && S.zero.testBit i) = false
      ∧ S.neg1.testBit i = (decide (i < 64) && !(S.pos1.testBit i || S.zero.testBit i)) := by
  obtain ⟨h1, h2, h3, h4⟩ := h
  have e1 := congrArg (fun x => x.testBit i) h1
  have e2 := congrArg (fun x => x.testBit i) h2
  have e3 := congrArg (fun x => x.testBit i) h3
  have e4 := congrArg (fun x => x.testBit i) h4
  simp only [Nat.testBit_or, Nat.testBit_and, testBit_all_ones, Nat.zero_testBit] at e1 e2 e3 e4
  revert e1 e2 e3 e4
  cases S.pos1.testBit i <;> cases S.zero.testBit i <;> cases S.neg1.testBit i <;> simp

theorem Partition.neg1_lt {S : DeltaState} (h : Partition S) : S.neg1 < 2 ^ 64 := by
  apply lt_word_of_testBit
  intro i hi
  rw [(h.bits i).2]
  have : ¬ i < 64 := by omega
  simp [this]

theorem DVpos1shift_high (DH : DeltaState) (M : Nat) (hD : DH.neg1 < 2 ^ 64) (i : Nat)
    (hi : 64 ≤ i) : (loopBody DH M).DVpos1shift.testBit i = false := by
  have h1 : (((DH.neg1 &&& M) + DH.neg1) % 2 ^ 64).testBit i = false :=
    testBit_of_lt_word (Nat.mod_lt _ (by decide)) hi
  have h2 := testBit_of_lt_word hD hi
  simp only [loopBody, Nat.testBit_xor, Nat.testBit_and, h1, h2]
  simp

theorem DVzeroshift_high (DH : DeltaState) (M i : Nat) (hi : 64 ≤ i) :
    (loopBody DH M).DVzeroshift.testBit i = false :=
  testBit_of_lt_word (shl1_lt _) hi

theorem DVneg1shift_high (DH : DeltaState) (M : Nat) (hD : DH.neg1 < 2 ^ 64) (i : Nat)
    (hi : 64 ≤ i) : (loopBody DH M).DVneg1shift.testBit i = false := by
  have h1 := DVpos1shift_high DH M hD i hi
  have h2 := DVzeroshift_high DH M i hi
  have h3 : ¬ i < 64 := by omega
  have : (loopBody DH M).DVneg1shift
      = all_ones ^^^ ((loopBody DH M).DVpos1shift ||| (loopBody DH M).DVzeroshift) := rfl
  rw [this, Nat.testBit_xor, Nat.testBit_or, testBit_all_ones, h1, h2]
  simp [h3]

/-- The vertical state is a partition whenever the horizontal one is. -/
theorem vertical_partition (DH : DeltaState) (M : Nat) (h : Partition DH) :
    Partition (verticalState DH M) := by
  have hD := h.neg1_lt
  apply partition_of_bits
  · exact DVpos1shift_high DH M hD
  · exact DVzeroshift_high DH M
  · intro i hi
    show ((loopBody DH M).DVpos1shift.testBit i && (loopBody DH M).DVzeroshift.testBit i) = false
    cases i with
    | zero => rw [DVpos1shift_zero]; rfl
    | succ j =>
      rw [DVpos1shift_succ DH M j hi, DVzeroshift_succ DH M j hi]
      have hb := h.bits j
      have hj : j < 64 := by omega
      rw [hb.2]
      simp only [hj, decide_True, Bool.true_and]
      revert hb
      cases DH.pos1.testBit j <;> cases DH.zero.testBit j <;> cases M.testBit j <;>
        cases (loopBody DH M).DVpos1shift.testBit j <;> simp
  · intro i
    show (loopBody DH M).DVneg1shift.testBit i = _
    rcases Nat.lt_or_ge i 64 with hi | hi
    · rw [DVneg1shift_testBit DH M i hi]
      simp [hi, verticalState]
    · rw [DVneg1shift_high DH M hD i hi]
      have : ¬ i < 64 := by omega
      simp [this]

/-- The horizontal state left by an iteration is a partition. -/
theorem step_partition (DH : DeltaState) (M : Nat) (hD : DH.neg1 < 2 ^ 64) :
    Partition (recursionStep DH M) := by
  have hVn := DVneg1shift_high DH M hD
  have hVz := DVzeroshift_high DH M
  apply partition_of_bits
  · intro i hi
    show (loopBody DH M).DHpos1.testBit i = false
    rw [DHpos1_testBit, hVn i hi]; rfl
  · intro i hi
    have e : (loopBody DH M).DHzero
        = ((loopBody DH M).DVzeroshift &&& (loopBody DH M).DHpos1orMatch)
          ||| ((loopBody DH M).DVneg1shift &&& (loopBody DH M).DHneg1tozero) := rfl
    show (loopBody DH M).DHzero.testBit i = false
    rw [e, Nat.testBit_or, Nat.testBit_and, Nat.testBit_and, hVn i hi, hVz i hi]; rfl
  · intro i hi
    show ((loopBody DH M).DHpos1.testBit i && (loopBody DH M).DHzero.testBit i) = false
    rw [DHpos1_testBit, DHzero_testBit DH M i hi, DVneg1shift_testBit DH M i hi]
    cases (loopBody DH M).DVpos1shift.testBit i <;>
      cases (loopBody DH M).DVzeroshift.testBit i <;>
      cases DH.pos1.testBit i <;> cases M.testBit i <;> rfl
  · intro i
    show (loopBody DH M).DHneg1.testBit i = _
    rw [DHneg1_testBit]
    rcases Nat.lt_or_ge i 64 with hi | hi
    · simp only [hi, decide_True, Bool.true_xor, Bool.true_and, recursionStep]
      cases (loopBody DH M).DHzero.testBit i <;> cases (loopBody DH M).DHpos1.testBit i <;> rfl
    · have h3 : ¬ i < 64 := by omega
      have e : (loopBody DH M).DHzero
          = ((loopBody DH M).DVzeroshift &&& (loopBody DH M).DHpos1orMatch)
            ||| ((loopBody DH M).DVneg1shift &&& (loopBody DH M).DHneg1tozero) := rfl
      rw [DHpos1_testBit, e, Nat.testBit_or, Nat.testBit_and, Nat.testBit_and, hVn i hi,
        hVz i hi]
      simp [h3]

/-! ## The recursion computes the deltas of the scoring matrix -/

theorem cell_vertical : ∀ p z m vp vz : Bool, (p && z) = false →
    dec (!(p || z) && (m || vp)) ((z && (vp || m)) || (!(p || z) && !(vp || m)))
      = max (if m then 0 else -1) (max (dec vp vz - 1) (dec p z - 1)) - dec p z := by
  decide

theorem cell_horizontal : ∀ p z m vp vz : Bool, (vp && vz) = false →
    dec (!(vp || vz) && (p || m)) ((vz && (p || m)) || (!(vp || vz) && !(p || m)))
      = max (if m then 0 else -1) (max (dec vp vz - 1) (dec p z - 1)) - dec vp vz := by
  decide

theorem subst_eq_ite (x c : Int) :
    (if decide (x = c) = true then (0 : Int) else -1) = subst x c := by
  simp [subst]

/-- Bit `i` of the vertical state is the step down column `i` of the scoring matrix. -/
theorem vertical_delta (a pre : List Int) (c : Int) (DH : DeltaState) (M : Nat)
    (hP : Partition DH)
    (hM : ∀ i, i < a.length → M.testBit i = decide (a[i]? = some c))
    (hH : ∀ i, i < a.length →
      delta DH i = alignScore (a.take (i + 1)) pre - alignScore (a.take i) pre) :
    ∀ i, i ≤ a.length → i < 64 →
      delta (verticalState DH M) i
        = alignScore (a.take i) (pre ++ [c]) - alignScore (a.take i) pre
  | 0, _, _ => by
    show dec ((loopBody DH M).DVpos1shift.testBit 0) ((loopBody DH M).DVzeroshift.testBit 0) = _
    rw [DVpos1shift_zero, DVzeroshift_zero]
    simp only [List.take_zero, alignScore_nil_left, List.length_append, List.length_singleton,
      dec]
    push_cast
    simp
  | i + 1, h1, h2 => by
    have ih := vertical_delta a pre c DH M hP hM hH i (by omega) (by omega)
    have hi : i < a.length := by omega
    have h64 : i < 64 := by omega
    obtain ⟨x, hx⟩ : ∃ x, a[i]? = some x := ⟨a[i], List.getElem?_eq_getElem hi⟩
    have ht : a.take (i + 1) = a.take i ++ [x] := by rw [List.take_succ, hx]; rfl
    have hh := hH i hi
    have hm := hM i hi
    rw [hx] at hm
    simp only [Option.some.injEq] at hm
    rw [ht] at hh ⊢
    rw [alignScore_snoc_snoc]
    have hc := cell_vertical (DH.pos1.testBit i) (DH.zero.testBit i) (decide (x = c))
      ((loopBody DH M).DVpos1shift.testBit i) ((loopBody DH M).DVzeroshift.testBit i)
      (hP.bits i).1
    rw [subst_eq_ite] at hc
    have hv : delta (verticalState DH M) (i + 1)
        = dec (!(DH.pos1.testBit i || DH.zero.testBit i)
              && (decide (x = c) || (loopBody DH M).DVpos1shift.testBit i))
            ((DH.zero.testBit i && ((loopBody DH M).DVpos1shift.testBit i || decide (x = c)))
              || (!(DH.pos1.testBit i || DH.zero.testBit i)
                && !((loopBody DH M).DVpos1shift.testBit i || decide (x = c)))) := by
      show dec ((loopBody DH M).DVpos1shift.testBit (i + 1))
        ((loopBody DH M).DVzeroshift.testBit (i + 1)) = _
      rw [DVpos1shift_succ DH M i h2, DVzeroshift_succ DH M i h2, (hP.bits i).2, hm]
      simp only [h64, decide_True, Bool.true_and]
    have ih2 : dec ((loopBody DH M).DVpos1shift.testBit i)
        ((loopBody DH M).DVzeroshift.testBit i)
        = alignScore (a.take i) (pre ++ [c]) - alignScore (a.take i) pre := ih
    have hh2 : dec (DH.pos1.testBit i) (DH.zero.testBit i)
        = alignScore (a.take i ++ [x]) pre - alignScore (a.take i) pre := hh
    rw [hv, hc, ih2, hh2]
    omega

/-- Bit `i` of the new horizontal state is the step along row `pre ++ [c]`. -/
theorem horizontal_delta (a pre : List Int) (c : Int) (DH : DeltaState) (M : Nat)
    (hP : Partition DH)
    (hM : ∀ i, i < a.length → M.testBit i = decide (a[i]? = some c))
    (hH : ∀ i, i < a.length →
      delta DH i = alignScore (a.take (i + 1)) pre - alignScore (a.take i) pre)
    (i : Nat) (hi : i < a.length) (h64 : i < 64) :
    delta (recursionStep DH M) i
      = alignScore (a.take (i + 1)) (pre ++ [c]) - alignScore (a.take i) (pre ++ [c]) := by
  have hv := vertical_delta a pre c DH M hP hM hH i (by omega) h64
  have hVP := (vertical_partition DH M hP).bits i
  obtain ⟨x, hx⟩ : ∃ x, a[i]? = some x := ⟨a[i], List.getElem?_eq_getElem hi⟩
  have ht : a.take (i + 1) = a.take i ++ [x] := by rw [List.take_succ, hx]; rfl
  have hh := hH i hi
  have hm := hM i hi
  rw [hx] at hm
  simp only [Option.some.injEq] at hm
  rw [ht] at hh ⊢
  rw [alignScore_snoc_snoc]
  have hc := cell_horizontal (DH.pos1.testBit i) (DH.zero.testBit i) (decide (x = c))
    ((loopBody DH M).DVpos1shift.testBit i) ((loopBody DH M).DVzeroshift.testBit i) hVP.1
  rw [subst_eq_ite] at hc
  have hn : delta (recursionStep DH M) i
      = dec (!((loopBody DH M).DVpos1shift.testBit i || (loopBody DH M).DVzeroshift.testBit i)
            && (DH.pos1.testBit i || decide (x = c)))
          (((loopBody DH M).DVzeroshift.testBit i && (DH.pos1.testBit i || decide (x = c)))
            || (!((loopBody DH M).DVpos1shift.testBit i
                  || (loopBody DH M).DVzeroshift.testBit i)
              && !(DH.pos1.testBit i || decide (x = c)))) := by
    show dec ((loopBody DH M).DHpos1.testBit i) ((loopBody DH M).DHzero.testBit i) = _
    rw [DHpos1_testBit, DHzero_testBit DH M i h64, DVneg1shift_testBit DH M i h64, hm]
  have hv2 : dec ((loopBody DH M).DVpos1shift.testBit i)
      ((loopBody DH M).DVzeroshift.testBit i)
      = alignScore (a.take i) (pre ++ [c]) - alignScore (a.take i) pre := hv
  have hh2 : dec (DH.pos1.testBit i) (DH.zero.testBit i)
      = alignScore (a.take i ++ [x]) pre - alignScore (a.take i) pre := hh
  rw [hn, hc, hv2, hh2]
  omega

/-! ## The match table -/

theorem bitmaskAt_zero : bitmaskAt 0 = 1 := by decide

theorem shl1_bitmaskAt (j : Nat) : shl1 (bitmaskAt j) = bitmaskAt (j + 1) := by
  unfold shl1 bitmaskAt
  rw [Nat.shiftLeft_eq, pow_succ]
  omega

theorem testBit_bitmaskAt (j i : Nat) :
    (bitmaskAt j).testBit i = (decide (i < 64) && decide (j = i)) := by
  unfold bitmaskAt
  rw [Nat.testBit_mod_two_pow, Nat.testBit_two_pow]

theorem bitmaskAt_of_lt {j : Nat} (h : j < 64) : bitmaskAt j = 2 ^ j :=
  Nat.mod_eq_of_lt (Nat.pow_lt_pow_right (by decide) h)

theorem bitmaskAt_of_ge {j : Nat} (h : 64 ≤ j) : bitmaskAt j = 0 := by
  unfold bitmaskAt
  exact Nat.mod_eq_zero_of_dvd (pow_dvd_pow 2 h)

theorem matchvecIndex_of_valid {c : Int} (h : ValidChar c) : matchvecIndex c = some c.toNat := by
  unfold matchvecIndex
  exact if_pos h

theorem encodeLoop_spec : ∀ (rest : List Int) (mv : Matchvec) (j : Nat),
    (∀ c ∈ rest, ValidChar c) →
    ∃ mv', encodeLoop rest mv (bitmaskAt j) = some mv' ∧
      ∀ k i, (mv' k).testBit i
        = ((mv k).testBit i
          || (decide (i < 64) && (decide (j ≤ i) && decide (rest[i - j]? = some (k : Int)))))
  | [], mv, j, _ => ⟨mv, rfl, by intro k i; simp⟩
  | c :: rest, mv, j, h => by
    have hc : ValidChar c := h c (List.mem_cons_self _ _)
    obtain ⟨mv', h1, h2⟩ := encodeLoop_spec rest
      (fun s => if s = c.toNat then mv s ||| bitmaskAt j else mv s) (j + 1)
      (fun d hd => h d (List.mem_cons_of_mem _ hd))
    refine ⟨mv', ?_, ?_⟩
    · rw [encodeLoop, matchvecIndex_of_valid hc]
      simp only [shl1_bitmaskAt]
      exact h1
    · intro k i
      rw [h2 k i]
      have hck : (c = (k : Int)) ↔ k = c.toNat := by
        have := hc.1
        omega
      rcases Nat.lt_trichotomy i j with hij | hij | hij
      · have e1 : ¬ j ≤ i := by omega
        have e2 : ¬ j + 1 ≤ i := by omega
        have e3 : ¬ j = i := by omega
        by_cases hk : k = c.toNat <;>
          simp [hk, e1, e2, e3, Nat.testBit_or, testBit_bitmaskAt]
      · subst hij
        have e2 : ¬ i + 1 ≤ i := by omega
        by_cases hk : k = c.toNat
        · subst hk
          have hcast : ((c.toNat : Nat) : Int) = c := Int.toNat_of_nonneg hc.1
          simp [e2, Nat.testBit_or, testBit_bitmaskAt, hcast]
        · have : ¬ c = (k : Int) := fun e => hk (hck.1 e)
          simp [hk, e2, this]
      · have e1 : j ≤ i := by omega
        have e2 : j + 1 ≤ i := by omega
        have e3 : ¬ j = i := by omega
        have e4 : i - j = (i - (j + 1)) + 1 := by omega
        rw [e4, List.getElem?_cons_succ]
        by_cases hk : k = c.toNat <;>
          simp [hk, e1, e2, e3, Nat.testBit_or, testBit_bitmaskAt]

/-- The table built from `s1`: bit `i` of the word of symbol `k` tells whether `s1[i] = k`,
for the first 64 characters of `s1`. -/
theorem encodeLoop_table (s1 : List Int) (h : ∀ c ∈ s1, ValidChar c) :
    ∃ mv, encodeLoop s1 calloc256 1 = some mv ∧
      ∀ k i, (mv k).testBit i = (decide (i < 64) && decide (s1[i]? = some (k : Int))) := by
  obtain ⟨mv, h1, h2⟩ := encodeLoop_spec s1 calloc256 0 h
  rw [bitmaskAt_zero] at h1
  refine ⟨mv, h1, ?_⟩
  intro k i
  rw [h2 k i]
  simp [calloc256]

/-! ## The recursion loop and the extraction loop -/

theorem initDH_partition : Partition initDH := by decide

theorem rowInv_init (a : List Int) : RowInv a [] initDH := by
  refine ⟨initDH_partition, ?_⟩
  intro i hi
  rw [alignScore_nil_right, alignScore_nil_right, List.length_take, List.length_take,
    Nat.min_eq_left (by omega), Nat.min_eq_left (by omega)]
  show dec ((0 : Nat).testBit i) ((0 : Nat).testBit i) = _
  rw [Nat.zero_testBit]
  simp only [dec]
  push_cast
  simp

theorem rowInv_step (a pre : List Int) (hn : a.length ≤ 64) (c : Int) (DH : DeltaState)
    (M : Nat) (hM : ∀ i, i < a.length → M.testBit i = decide (a[i]? = some c))
    (h : RowInv a pre DH) : RowInv a (pre ++ [c]) (recursionStep DH M) :=
  ⟨step_partition DH M h.1.neg1_lt,
    fun i hi => horizontal_delta a pre c DH M h.1 hM h.2 i hi (by omega)⟩

theorem recursionLoop_spec (a : List Int) (hn : a.length ≤ 64) (mv : Matchvec)
    (hmv : ∀ c, ValidChar c → ∀ i, i < a.length →
      (mv c.toNat).testBit i = decide (a[i]? = some c)) :
    ∀ (rest pre : List Int) (DH : DeltaState), (∀ c ∈ rest, ValidChar c) → RowInv a pre DH →
      ∃ DH', recursionLoop mv rest DH = some DH' ∧ RowInv a (pre ++ rest) DH'
  | [], pre, DH, _, h => ⟨DH, rfl, by rwa [List.append_nil]⟩
  | c :: rest, pre, DH, hv, h => by
    have hc : ValidChar c := hv c (List.mem_cons_self _ _)
    obtain ⟨DH', h1, h2⟩ := recursionLoop_spec a hn mv hmv rest (pre ++ [c])
      (recursionStep DH (mv c.toNat)) (fun d hd => hv d (List.mem_cons_of_mem _ hd))
      (rowInv_step a pre hn c DH _ (hmv c hc) h)
    refine ⟨DH', ?_, ?_⟩
    · rw [recursionLoop, matchvecIndex_of_valid hc]
      exact h1
    · rwa [List.append_assoc, List.singleton_append] at h2

/-- What one iteration of the extraction loop adds, inside the word. -/
theorem extract_term (DH : DeltaState) (h : Partition DH) (i : Nat) (hi : i < 64) :
    ((((DH.zero &&& bitmaskAt i) >>> i) * 1 + ((DH.pos1 &&& bitmaskAt i) >>> i) * 2
        + ((0 &&& bitmaskAt i) >>> i) * 4 : Nat) - 1 : Int) = delta DH i := by
  have hb := (h.bits i).1
  have hpos : 0 < 2 ^ i := Nat.two_pow_pos i
  rw [bitmaskAt_of_lt hi, Nat.and_two_pow, Nat.and_two_pow, Nat.zero_and, Nat.zero_shiftRight,
    Nat.shiftRight_eq_div_pow, Nat.shiftRight_eq_div_pow, Nat.mul_div_cancel _ hpos,
    Nat.mul_div_cancel _ hpos]
  unfold delta dec
  revert hb
  cases DH.pos1.testBit i <;> cases DH.zero.testBit i <;> simp

theorem scoreLoop_telescope (DH : DeltaState) (h : Partition DH) (f : Nat → Int) (n : Nat)
    (hf : ∀ i, i < n → i < 64 → delta DH i = f (i + 1) - f i) :
    ∀ (k i : Nat), i + k = n → n ≤ 64 →
      scoreLoop DH.zero DH.pos1 0 k i (bitmaskAt i) (f i) = f n
  | 0, i, hk, _ => by
    have : i = n := by omega
    rw [scoreLoop, this]
  | k + 1, i, hk, hn => by
    have hi : i < 64 := by omega
    rw [scoreLoop, shl1_bitmaskAt, extract_term DH h i hi, hf i (by omega) hi]
    have e : f i + (f (i + 1) - f i) = f (i + 1) := by ring
    rw [e]
    exact scoreLoop_telescope DH h f n hf k (i + 1) (by omega) hn

/-- The function returns the optimal global alignment score. -/
theorem bitwise_alignment_eq_alignScore (s1 s2 : List Int) (hn : s1.length ≤ 64)
    (h1 : ∀ c ∈ s1, ValidChar c) (h2 : ∀ c ∈ s2, ValidChar c) :
    bitwise_alignment s1 s2 = some (alignScore s1 s2) := by
  obtain ⟨mv, e1, hmv⟩ := encodeLoop_table s1 h1
  have hmv2 : ∀ c, ValidChar c → ∀ i, i < s1.length →
      (mv c.toNat).testBit i = decide (s1[i]? = some c) := by
    intro c hc i hi
    have hi64 : i < 64 := by omega
    rw [hmv c.toNat i, Int.toNat_of_nonneg hc.1]
    simp [hi64]
  obtain ⟨DH, e2, hP, hD⟩ := recursionLoop_spec s1 hn mv hmv2 s2 [] initDH h2 (rowInv_init s1)
  rw [List.nil_append] at hD
  have e3 := scoreLoop_telescope DH hP (fun i => alignScore (s1.take i) s2) s1.length
    (fun i hi _ => hD i hi) s1.length 0 (by omega) hn
  simp only [List.take_zero, alignScore_nil_left, List.take_length, bitmaskAt_zero] at e3
  unfold bitwise_alignment
  simp only [e1, e2]
  rw [← e3]
  simp

/-! ## Properties of the optimal score -/

theorem alignScore_nonpos : ∀ xs ys : List Int, alignScore xs ys ≤ 0
  | [], ys => by rw [alignScore_nil_left]; omega
  | x :: xs, [] => by rw [alignScore_nil_right]; omega
  | x :: xs, y :: ys => by
    have h1 := alignScore_nonpos xs ys
    have h2 := alignScore_nonpos xs (y :: ys)
    have h3 := alignScore_nonpos (x :: xs) ys
    rw [alignScore_cons_cons]
    unfold subst
    split_ifs <;> omega

theorem alignScore_eq_zero : ∀ xs ys : List Int, alignScore xs ys = 0 → xs = ys
  | [], ys => by
    rw [alignScore_nil_left]
    intro h
    have : ys.length = 0 := by omega
    exact (List.length_eq_zero.1 this).symm
  | x :: xs, [] => by
    rw [alignScore_nil_right, List.length_cons]
    intro h
    omega
  | x :: xs, y :: ys => by
    have h1 := alignScore_nonpos xs ys
    have h2 := alignScore_nonpos xs (y :: ys)
    have h3 := alignScore_nonpos (x :: xs) ys
    have ih := alignScore_eq_zero xs ys
    rw [alignScore_cons_cons]
    unfold subst
    split_ifs with hxy
    · intro h
      rw [hxy, ih (by omega)]
    · intro h
      omega

theorem alignScore_cons_ge (x y : Int) (xs ys : List Int) :
    alignScore xs ys + subst x y ≤ alignScore (x :: xs) (y :: ys) := by
  rw [alignScore_cons_cons]
  exact le_max_left _ _

theorem alignScore_self : ∀ xs : List Int, alignScore xs xs = 0
  | [] => rfl
  | x :: xs => by
    have h1 := alignScore_cons_ge x x xs xs
    have h2 := alignScore_nonpos (x :: xs) (x :: xs)
    rw [alignScore_self xs] at h1
    simp only [subst, if_true] at h1
    omega

theorem alignScore_skip_ge (y : Int) : ∀ xs ys : List Int,
    alignScore xs ys - 1 ≤ alignScore xs (y :: ys)
  | [], ys => by
    rw [alignScore_nil_left, alignScore_nil_left, List.length_cons]
    push_cast
    omega
  | x :: xs, ys => by
    rw [alignScore_cons_cons]
    exact le_trans (le_max_right _ _) (le_max_right _ _)

theorem alignScore_ge_neg_mismatches : ∀ xs ys : List Int, xs.length = ys.length →
    -(mismatches xs ys : Int) ≤ alignScore xs ys
  | [], [], _ => by simp [mismatches, alignScore_nil_left]
  | [], y :: ys, h => by simp at h
  | x :: xs, [], h => by simp at h
  | x :: xs, y :: ys, h => by
    have ih := alignScore_ge_neg_mismatches xs ys (by simpa using h)
    have h1 := alignScore_cons_ge x y xs ys
    have h2 : (mismatches (x :: xs) (y :: ys) : Int)
        = mismatches xs ys - subst x y := by
      unfold mismatches subst
      rw [List.zip_cons_cons, List.filter_cons]
      by_cases hxy : x = y <;> simp [hxy]
    omega

theorem mismatches_self : ∀ xs : List Int, mismatches xs xs = 0
  | [] => rfl
  | x :: xs => by
    have ih := mismatches_self xs
    unfold mismatches at ih ⊢
    rw [List.zip_cons_cons, List.filter_cons]
    simpa using ih

theorem alignScore_insert_ge (c : Int) : ∀ (p : Nat) (s : List Int),
    -1 ≤ alignScore s (s.take p ++ c :: s.drop p)
  | 0, s => by
    have h := alignScore_skip_ge c s s
    rw [alignScore_self] at h
    simpa using h
  | p + 1, [] => by
    simp [alignScore_nil_left]
  | p + 1, x :: s => by
    have ih := alignScore_insert_ge c p s
    have h1 := alignScore_cons_ge x x s (s.take p ++ c :: s.drop p)
    simp only [subst, if_true] at h1
    simp only [List.take_succ_cons, List.drop_succ_cons, List.cons_append]
    omega

theorem recursionLoop_partition (mv : Matchvec) : ∀ (rest : List Int) (DH : DeltaState),
    (∀ c ∈ rest, ValidChar c) → Partition DH →
    ∃ DH', recursionLoop mv rest DH = some DH' ∧ Partition DH'
  | [], DH, _, h => ⟨DH, rfl, h⟩
  | c :: rest, DH, hv, h => by
    have hc : ValidChar c := hv c (List.mem_cons_self _ _)
    obtain ⟨DH', h1, h2⟩ := recursionLoop_partition mv rest (recursionStep DH (mv c.toNat))
      (fun d hd => hv d (List.mem_cons_of_mem _ hd)) (step_partition DH _ h.neg1_lt)
    refine ⟨DH', ?_, h2⟩
    rw [recursionLoop, matchvecIndex_of_valid hc]
    exact h1

theorem valid_take (s : List Int) (j : Nat) (h : ∀ c ∈ s, ValidChar c) :
    ∀ c ∈ s.take j, ValidChar c :=
  fun c hc => h c (List.mem_of_mem_take hc)

theorem encodeLoop_take (s1 : List Int) (h1 : ∀ c ∈ s1, ValidChar c) :
    encodeLoop s1 calloc256 1 = encodeLoop (s1.take 64) calloc256 1 := by
  obtain ⟨mv, e1, hmv⟩ := encodeLoop_table s1 h1
  obtain ⟨mv2, e2, hmv2⟩ := encodeLoop_table (s1.take 64) (valid_take s1 64 h1)
  rw [e1, e2]
  congr 1
  funext k
  apply Nat.eq_of_testBit_eq
  intro i
  rw [hmv k i, hmv2 k i, List.getElem?_take]
  by_cases hi : i < 64 <;> simp [hi]

/-! ## The properties of the specification -/

/-- C8: the five scenarios of the specification, the strings read as ASCII codes
(`A` = 65, `C` = 67, `G` = 71, `T` = 84): `ACGT`/`ACGT` scores `0`, `ACGT`/`AGGT` scores
`-1`, `ACGT`/`ACGGT` scores `-1`, the empty string against `AAA` scores `-3`, and `AAA`
against the empty string scores `-3`. -/
theorem bitwise_alignment_scenarios :
    bitwise_alignment [65, 67, 71, 84] [65, 67, 71, 84] = some 0
      ∧ bitwise_alignment [65, 67, 71, 84] [65, 71, 71, 84] = some (-1)
      ∧ bitwise_alignment [65, 67, 71, 84] [65, 67, 71, 71, 84] = some (-1)
      ∧ bitwise_alignment [] [65, 65, 65] = some (-3)
      ∧ bitwise_alignment [65, 65, 65] [] = some (-3) := by
  decide

/-- C9: from any horizontal state whose word `neg1` is a 64-bit word (so from any state of
three 64-bit words) and any match word, one iteration of the recursion loop leaves a state
whose three words partition the all-ones word: their union is all ones and they are
pairwise disjoint. The initial state is such a partition, and so is the state after every
iteration of a run over any second sequence. -/
theorem recursionStep_is_partition (DH : DeltaState) (Matches : Nat)
    (hneg : DH.neg1 < 2 ^ 64) :
    Partition (recursionStep DH Matches)
      ∧ Partition initDH
      ∧ ∀ (mv : Matchvec) (s2 : List Int) (j : Nat), (∀ c ∈ s2, ValidChar c) →
          ∃ DHj, recursionLoop mv (s2.take j) initDH = some DHj ∧ Partition DHj :=
  ⟨step_partition DH Matches hneg, initDH_partition,
    fun mv s2 j h => recursionLoop_partition mv (s2.take j) initDH (valid_take s2 j h)
      initDH_partition⟩

theorem recursionStep_is_partition_witness :
    (6789 : Nat) < 2 ^ 64
      ∧ Partition (recursionStep { pos1 := 12345, zero := 2 ^ 64 - 1, neg1 := 6789 }
          (2 ^ 63 + 5)) :=
  ⟨by decide,
    (recursionStep_is_partition { pos1 := 12345, zero := 2 ^ 64 - 1, neg1 := 6789 }
      (2 ^ 63 + 5) (by decide)).1⟩

/-- C10: when the horizontal state at the entry of an iteration is a partition of the
all-ones word, the vertical state `(DVpos1shift, DVzeroshift, DVneg1shift)` computed in
that iteration is one too, whatever the match word; this holds in particular at every
iteration of a run from the initial state. -/
theorem verticalState_is_partition (DH : DeltaState) (Matches : Nat) (h : Partition DH) :
    Partition (verticalState DH Matches)
      ∧ ∀ (mv : Matchvec) (s2 : List Int) (j : Nat), (∀ c ∈ s2, ValidChar c) →
          ∃ DHj, recursionLoop mv (s2.take j) initDH = some DHj
            ∧ Partition (verticalState DHj Matches) := by
  refine ⟨vertical_partition DH Matches h, ?_⟩
  intro mv s2 j hv
  obtain ⟨DHj, e, hP⟩ :=
    recursionLoop_partition mv (s2.take j) initDH (valid_take s2 j hv) initDH_partition
  exact ⟨DHj, e, vertical_partition DHj Matches hP⟩

theorem verticalState_is_partition_witness :
    Partition { pos1 := 5, zero := 2, neg1 := 2 ^ 64 - 8 }
      ∧ Partition (verticalState { pos1 := 5, zero := 2, neg1 := 2 ^ 64 - 8 } 11) :=
  ⟨by decide, (verticalState_is_partition _ 11 (by decide)).1⟩

/-! ## Match table entries, score extraction and the carry vector -/

/-- The result of `bitwise_alignment` is the score extracted from the state left by the
recursion loop. -/
theorem bitwise_alignment_eq_extractScore (s1 s2 : List Int) :
    bitwise_alignment s1 s2
      = (encodeLoop s1 calloc256 1).bind
          (fun mv => (recursionLoop mv s2 initDH).map (extractScore s1.length s2.length)) := by
  unfold bitwise_alignment
  cases encodeLoop s1 calloc256 1 with
  | none => rfl
  | some mv =>
    simp only [Option.some_bind]
    cases recursionLoop mv s2 initDH <;> rfl

/-- C17: the word `DVpos1shift = ((INITpos1s + DHneg1) ^ DHneg1) ^ INITpos1s`, with
`INITpos1s = DHneg1 & Matches` and the addition modulo `2 ^ 64`, is the carry-in vector of
that addition: bit `0` is clear, and for `i` in `0..62` bit `i + 1` is set exactly when bit
`i` of `DHneg1` is set and bit `i` of `Matches` or of `DVpos1shift` is set. -/
theorem DVpos1shift_is_carry_vector (DH : DeltaState) (Matches : Nat) :
    (loopBody DH Matches).DVpos1shift
        = ((((DH.neg1 &&& Matches) + DH.neg1) % 2 ^ 64) ^^^ DH.neg1) ^^^ (DH.neg1 &&& Matches)
      ∧ (∀ i, i < 64 → (loopBody DH Matches).DVpos1shift.testBit i
          = carryIn (DH.neg1 &&& Matches) DH.neg1 i)
      ∧ (loopBody DH Matches).DVpos1shift.testBit 0 = false
      ∧ ∀ i, i ≤ 62 →
          ((loopBody DH Matches).DVpos1shift.testBit (i + 1) = true
            ↔ DH.neg1.testBit i = true
              ∧ (Matches.testBit i = true
                ∨ (loopBody DH Matches).DVpos1shift.testBit i = true)) := by
  refine ⟨rfl, fun i hi => DVpos1shift_testBit DH Matches i hi, DVpos1shift_zero DH Matches, ?_⟩
  intro i hi
  rw [DVpos1shift_succ DH Matches i (by omega)]
  simp

/-! ## Table indices, the run of the specification and the deltas of the matrix -/

theorem charOfByte_valid (charSigned : Bool) (b : Nat) (h : b < 256)
    (hs : charSigned = true → b < 128) :
    ValidChar (charOfByte charSigned b) ∧ (charOfByte charSigned b).toNat = b := by
  unfold charOfByte ValidChar
  have hne : ¬ (charSigned = true ∧ 128 ≤ b) := fun hh => absurd (hs hh.1) (by omega)
  rw [if_neg hne]
  omega

theorem valid_map_charOfByte (charSigned : Bool) (bs : List Nat)
    (h : ∀ b ∈ bs, b < 256 ∧ (charSigned = true → b < 128)) :
    ∀ c ∈ bs.map (charOfByte charSigned), ValidChar c := by
  intro c hc
  obtain ⟨b, hb, rfl⟩ := List.mem_map.1 hc
  exact (charOfByte_valid charSigned b (h b hb).1 (h b hb).2).1

theorem recursionStep_eq_specStep (DH : DeltaState) (M : Nat) :
    recursionStep DH M = specStep DH M := rfl

theorem recursionLoop_eq_foldl (mv : Matchvec) : ∀ (s2 : List Int) (DH : DeltaState),
    (∀ c ∈ s2, ValidChar c) →
    recursionLoop mv s2 DH
      = some ((s2.map Int.toNat).foldl (fun H c => specStep H (mv c)) DH)
  | [], _, _ => rfl
  | c :: rest, DH, hv => by
    have hc : ValidChar c := hv c (List.mem_cons_self _ _)
    have ih := recursionLoop_eq_foldl mv rest (recursionStep DH (mv c.toNat))
      (fun d hd => hv d (List.mem_cons_of_mem _ hd))
    rw [recursionLoop, matchvecIndex_of_valid hc]
    exact ih

theorem loopBodyNoRemain_fields (r : Nat) (DH : DeltaState) (M : Nat) :
    (loopBodyNoRemain r DH M).DHpos1 = (loopBody DH M).DHpos1
      ∧ (loopBodyNoRemain r DH M).DHzero = (loopBody DH M).DHzero
      ∧ (loopBodyNoRemain r DH M).DHneg1 = (loopBody DH M).DHneg1 :=
  ⟨rfl, rfl, rfl⟩

theorem recursionLoopNoRemain_eq (r : Nat) (mv : Matchvec) :
    ∀ (s2 : List Int) (DH : DeltaState),
      recursionLoopNoRemain r mv s2 DH = recursionLoop mv s2 DH
  | [], _ => rfl
  | c :: rest, DH => by
    rw [recursionLoopNoRemain, recursionLoop]
    cases matchvecIndex c with
    | none => rfl
    | some k => exact recursionLoopNoRemain_eq r mv rest _

theorem bitwise_alignmentNoRemain_eq (r : Nat) (s1 s2 : List Int) :
    bitwise_alignmentNoRemain r s1 s2 = bitwise_alignment s1 s2 := by
  unfold bitwise_alignmentNoRemain bitwise_alignment
  cases encodeLoop s1 calloc256 1 with
  | none => rfl
  | some mv => simp only [recursionLoopNoRemain_eq]

/-- The table built from a first sequence of at most 64 characters, as the recursion
loop reads it. -/
theorem encodeLoop_matches (s1 : List Int) (hn : s1.length ≤ 64)
    (h1 : ∀ c ∈ s1, ValidChar c) :
    ∃ mv, encodeLoop s1 calloc256 1 = some mv ∧
      ∀ c, ValidChar c → ∀ i, i < s1.length →
        (mv c.toNat).testBit i = decide (s1[i]? = some c) := by
  obtain ⟨mv, e1, hmv⟩ := encodeLoop_table s1 h1
  refine ⟨mv, e1, ?_⟩
  intro c hc i hi
  have hi64 : i < 64 := by omega
  rw [hmv c.toNat i, Int.toNat_of_nonneg hc.1]
  simp [hi64]

theorem rowInv_after (s1 s2 : List Int) (hn : s1.length ≤ 64) (mv : Matchvec)
    (hmv : ∀ c, ValidChar c → ∀ i, i < s1.length →
      (mv c.toNat).testBit i = decide (s1[i]? = some c))
    (h2 : ∀ c ∈ s2, ValidChar c) (j : Nat) :
    ∃ DHj, recursionLoop mv (s2.take j) initDH = some DHj ∧ RowInv s1 (s2.take j) DHj := by
  obtain ⟨DHj, e, h⟩ := recursionLoop_spec s1 hn mv hmv (s2.take j) [] initDH
    (valid_take s2 j h2) (rowInv_init s1)
  rw [List.nil_append] at h
  exact ⟨DHj, e, h⟩

theorem agreeLow_iff (k x y : Nat) :
    AgreeLow k x y ↔ ∀ i, i < k → x.testBit i = y.testBit i := by
  unfold AgreeLow
  constructor
  · intro h i hi
    have e := congrArg (fun z => z.testBit i) h
    simp only [Nat.testBit_mod_two_pow, hi, decide_True, Bool.true_and] at e
    exact e
  · intro h
    apply Nat.eq_of_testBit_eq
    intro i
    rw [Nat.testBit_mod_two_pow, Nat.testBit_mod_two_pow]
    by_cases hi : i < k
    · rw [h i hi]
    · simp [hi]

theorem carryIn_congr (x y x' y' : Nat) : ∀ i,
    (∀ t, t < i → x.testBit t = x'.testBit t) → (∀ t, t < i → y.testBit t = y'.testBit t) →
    carryIn x y i = carryIn x' y' i
  | 0, _, _ => rfl
  | i + 1, hx, hy => by
    rw [carryIn, carryIn, hx i (by omega), hy i (by omega),
      carryIn_congr x y x' y' i (fun t ht => hx t (by omega)) (fun t ht => hy t (by omega))]

/-- Below bit `k ≤ 64`, the words of one iteration depend only on the low `k` bits of the
state and of the match word. -/
theorem loopBody_low (k : Nat) (hk : k ≤ 64) (H H' : DeltaState) (M M' : Nat)
    (hP : ∀ i, i < k → H.pos1.testBit i = H'.pos1.testBit i)
    (hZ : ∀ i, i < k → H.zero.testBit i = H'.zero.testBit i)
    (hD : ∀ i, i < k → H.neg1.testBit i = H'.neg1.testBit i)
    (hM : ∀ i, i < k → M.testBit i = M'.testBit i) (i : Nat) (hi : i < k) :
    (loopBody H M).DHpos1.testBit i = (loopBody H' M').DHpos1.testBit i
      ∧ (loopBody H M).DHzero.testBit i = (loopBody H' M').DHzero.testBit i
      ∧ (loopBody H M).DHneg1.testBit i = (loopBody H' M').DHneg1.testBit i := by
  have h64 : i < 64 := by omega
  have hVp : ∀ t, t < k → (loopBody H M).DVpos1shift.testBit t
      = (loopBody H' M').DVpos1shift.testBit t := by
    intro t ht
    rw [DVpos1shift_testBit H M t (by omega), DVpos1shift_testBit H' M' t (by omega)]
    apply carryIn_congr
    · intro u hu
      rw [Nat.testBit_and, Nat.testBit_and, hD u (by omega), hM u (by omega)]
    · intro u hu
      exact hD u (by omega)
  have hVz : (loopBody H M).DVzeroshift.testBit i = (loopBody H' M').DVzeroshift.testBit i := by
    cases i with
    | zero => rw [DVzeroshift_zero, DVzeroshift_zero]
    | succ t =>
      rw [DVzeroshift_succ H M t h64, DVzeroshift_succ H' M' t h64, hZ t (by omega),
        hD t (by omega), hM t (by omega), hVp t (by omega)]
  have hVn : (loopBody H M).DVneg1shift.testBit i = (loopBody H' M').DVneg1shift.testBit i := by
    rw [DVneg1shift_testBit H M i h64, DVneg1shift_testBit H' M' i h64, hVp i hi, hVz]
  have e1 : (loopBody H M).DHpos1.testBit i = (loopBody H' M').DHpos1.testBit i := by
    rw [DHpos1_testBit, DHpos1_testBit, hVn, hP i hi, hM i hi]
  have e2 : (loopBody H M).DHzero.testBit i = (loopBody H' M').DHzero.testBit i := by
    rw [DHzero_testBit H M i h64, DHzero_testBit H' M' i h64, hVn, hVz, hP i hi, hM i hi]
  refine ⟨e1, e2, ?_⟩
  rw [DHneg1_testBit, DHneg1_testBit, e1, e2]

theorem recursionStep_agreeLow (k : Nat) (hk : k ≤ 64) (H H' : DeltaState) (M M' : Nat)
    (hH : AgreeLowState k H H') (hM : AgreeLow k M M') :
    AgreeLowState k (recursionStep H M) (recursionStep H' M') := by
  have key := loopBody_low k hk H H' M M' ((agreeLow_iff _ _ _).1 hH.1)
    ((agreeLow_iff _ _ _).1 hH.2.1) ((agreeLow_iff _ _ _).1 hH.2.2) ((agreeLow_iff _ _ _).1 hM)
  exact ⟨(agreeLow_iff _ _ _).2 fun i hi => (key i hi).1,
    (agreeLow_iff _ _ _).2 fun i hi => (key i hi).2.1,
    (agreeLow_iff _ _ _).2 fun i hi => (key i hi).2.2⟩

theorem mask_shift_eq (z i : Nat) (hi : i < 64) :
    (z &&& bitmaskAt i) >>> i = (z.testBit i).toNat := by
  rw [bitmaskAt_of_lt hi, Nat.and_two_pow, Nat.shiftRight_eq_div_pow,
    Nat.mul_div_cancel _ (Nat.two_pow_pos i)]

theorem scoreLoop_congr (z p z' p' : Nat) : ∀ (k i : Nat) (score : Int), i + k ≤ 64 →
    (∀ t, t < i + k → z.testBit t = z'.testBit t) →
    (∀ t, t < i + k → p.testBit t = p'.testBit t) →
    scoreLoop z p 0 k i (bitmaskAt i) score = scoreLoop z' p' 0 k i (bitmaskAt i) score
  | 0, _, _, _, _, _ => rfl
  | k + 1, i, score, hk, hz, hp => by
    rw [scoreLoop, scoreLoop, shl1_bitmaskAt, mask_shift_eq z i (by omega),
      mask_shift_eq z' i (by omega), mask_shift_eq p i (by omega),
      mask_shift_eq p' i (by omega), hz i (by omega), hp i (by omega)]
    exact scoreLoop_congr z p z' p' k (i + 1) _ (by omega)
      (fun t ht => hz t (by omega)) (fun t ht => hp t (by omega))

theorem extractScore_congr (n m : Nat) (hn : n ≤ 64) (H H' : DeltaState)
    (h : AgreeLowState n H H') : extractScore n m H = extractScore n m H' := by
  have e := scoreLoop_congr H.zero H.pos1 H'.zero H'.pos1 n 0 (-1 * (m : Int)) (by omega)
    (fun t ht => (agreeLow_iff _ _ _).1 h.2.1 t (by omega))
    (fun t ht => (agreeLow_iff _ _ _).1 h.1 t (by omega))
  rw [bitmaskAt_zero] at e
  exact e

theorem recursionLoop_score_congr (n m : Nat) (hn : n ≤ 64) (mv : Matchvec) :
    ∀ (rest : List Int) (H H' : DeltaState), AgreeLowState n H H' →
      (recursionLoop mv rest H).map (extractScore n m)
        = (recursionLoop mv rest H').map (extractScore n m)
  | [], H, H', h => by
    show some (extractScore n m H) = some (extractScore n m H')
    rw [extractScore_congr n m hn H H' h]
  | c :: rest, H, H', h => by
    rw [recursionLoop, recursionLoop]
    cases matchvecIndex c with
    | none => rfl
    | some k =>
      exact recursionLoop_score_congr n m hn mv rest _ _
        (recursionStep_agreeLow n hn H H' (mv k) (mv k) h rfl)

theorem alignScore_symm : ∀ xs ys : List Int, alignScore xs ys = alignScore ys xs
  | [], ys => by rw [alignScore_nil_left, alignScore_nil_right]
  | x :: xs, [] => by rw [alignScore_nil_left, alignScore_nil_right]
  | x :: xs, y :: ys => by
    have ih1 := alignScore_symm xs ys
    have ih2 := alignScore_symm xs (y :: ys)
    have ih3 := alignScore_symm (x :: xs) ys
    have hs : subst x y = subst y x := by
      unfold subst
      by_cases h : x = y
      · rw [if_pos h, if_pos h.symm]
      · rw [if_neg h, if_neg (fun e => h e.symm)]
    rw [alignScore_cons_cons, alignScore_cons_cons, ih1, ih2, ih3, hs,
      max_comm (alignScore (y :: ys) xs - 1)]

theorem alignScore_lower : ∀ xs ys : List Int,
    -(max xs.length ys.length : Nat) ≤ alignScore xs ys
  | [], ys => by rw [alignScore_nil_left]; simp
  | x :: xs, [] => by rw [alignScore_nil_right]; simp
  | x :: xs, y :: ys => by
    have ih := alignScore_lower xs ys
    have h1 := alignScore_cons_ge x y xs ys
    have hs : -1 ≤ subst x y := by unfold subst; split_ifs <;> omega
    simp only [List.length_cons]
    omega

theorem alignScore_upper : ∀ xs ys : List Int,
    alignScore xs ys ≤ -((xs.length : Int) - ys.length)
      ∧ alignScore xs ys ≤ -((ys.length : Int) - xs.length)
  | [], ys => by
    rw [alignScore_nil_left]
    simp only [List.length_nil]
    push_cast
    omega
  | x :: xs, [] => by
    rw [alignScore_nil_right]
    simp only [List.length_cons, List.length_nil]
    push_cast
    omega
  | x :: xs, y :: ys => by
    have ih1 := alignScore_upper xs ys
    have ih2 := alignScore_upper xs (y :: ys)
    have ih3 := alignScore_upper (x :: xs) ys
    have hs : subst x y ≤ 0 := by unfold subst; split_ifs <;> omega
    rw [alignScore_cons_cons]
    simp only [List.length_cons] at ih2 ih3 ⊢
    push_cast at ih2 ih3 ⊢
    omega

/-- C18: for `k` in `0..64`, when two horizontal states agree on their low `k` bits in all
three planes and two match words agree on their low `k` bits, the states produced by one
iteration of the recursion loop agree on their low `k` bits. Hence, for `n ≤ 64`, the
score extracted after running the rest of the recursion from either of two states that
agree on their low `n` bits is the same: it does not depend on bits `n..63`. -/
theorem recursionStep_low_bits (k : Nat) (H H' : DeltaState) (M M' : Nat) (hk : k ≤ 64)
    (hH : AgreeLowState k H H') (hM : AgreeLow k M M') :
    AgreeLowState k (recursionStep H M) (recursionStep H' M')
      ∧ ∀ (m : Nat) (matchvec : Matchvec) (rest : List Int),
          (recursionLoop matchvec rest H).map (extractScore k m)
            = (recursionLoop matchvec rest H').map (extractScore k m) :=
  ⟨recursionStep_agreeLow k hk H H' M M' hH hM,
    fun m mv rest => recursionLoop_score_congr k m hk mv rest H H' hH⟩

theorem recursionStep_low_bits_witness :
    3 ≤ 64
      ∧ AgreeLowState 3 { pos1 := 5, zero := 2, neg1 := 2 ^ 64 - 8 }
          { pos1 := 13, zero := 2 + 32, neg1 := 64 }
      ∧ AgreeLow 3 6 (6 + 8 + 128)
      ∧ AgreeLowState 3 (recursionStep { pos1 := 5, zero := 2, neg1 := 2 ^ 64 - 8 } 6)
          (recursionStep { pos1 := 13, zero := 2 + 32, neg1 := 64 } (6 + 8 + 128)) :=
  ⟨by decide, by decide, by decide,
    (recursionStep_low_bits 3 { pos1 := 5, zero := 2, neg1 := 2 ^ 64 - 8 }
      { pos1 := 13, zero := 2 + 32, neg1 := 64 } 6 (6 + 8 + 128) (by decide) (by decide)
      (by decide)).1⟩

/-! ## Strings given by their bytes -/

theorem charOfByte_eq_cast (charSigned : Bool) (b : Nat)
    (h : b < 256 ∧ (charSigned = true → b < 128)) : charOfByte charSigned b = (b : Int) := by
  unfold charOfByte
  have hne : ¬ (charSigned = true ∧ 128 ≤ b) := fun hh => absurd (h.2 hh.1) (by omega)
  rw [if_neg hne]

theorem charsOf_eq_cast (charSigned : Bool) (bs : List Nat) (h : Indexable charSigned bs) :
    charsOf charSigned bs = List.map (fun b : Nat => (b : Int)) bs := by
  unfold charsOf
  exact List.map_congr_left (fun b hb => charOfByte_eq_cast charSigned b (h b hb))

theorem length_charsOf (charSigned : Bool) (bs : List Nat) :
    (charsOf charSigned bs).length = bs.length := by
  unfold charsOf
  exact List.length_map _ _

theorem valid_charsOf (charSigned : Bool) (bs : List Nat) (h : Indexable charSigned bs) :
    ∀ c ∈ charsOf charSigned bs, ValidChar c :=
  valid_map_charOfByte charSigned bs h

theorem charsOf_toNat (charSigned : Bool) (bs : List Nat) (h : Indexable charSigned bs) :
    (charsOf charSigned bs).map Int.toNat = bs := by
  rw [charsOf_eq_cast charSigned bs h, List.map_map]
  have e : (Int.toNat ∘ fun b : Nat => (b : Int)) = id := by
    funext b
    exact Int.toNat_ofNat b
  rw [e, List.map_id]

theorem charsOf_getElem? (charSigned : Bool) (bs : List Nat) (h : Indexable charSigned bs)
    (i s : Nat) : (charsOf charSigned bs)[i]? = some (s : Int) ↔ bs[i]? = some s := by
  rw [charsOf_eq_cast charSigned bs h, List.getElem?_map]
  cases bs[i]? <;> simp

theorem mem_charsOf (charSigned : Bool) (bs : List Nat) (h : Indexable charSigned bs)
    (s : Nat) : (s : Int) ∈ charsOf charSigned bs ↔ s ∈ bs := by
  rw [charsOf_eq_cast charSigned bs h, List.mem_map]
  constructor
  · rintro ⟨b, hb, e⟩
    have : b = s := by exact_mod_cast e
    rw [← this]; exact hb
  · exact fun hs => ⟨s, hs, rfl⟩

theorem charsOf_take (charSigned : Bool) (bs : List Nat) (j : Nat) :
    charsOf charSigned (bs.take j) = (charsOf charSigned bs).take j := by
  unfold charsOf
  exact List.map_take _ _ _

theorem charsOf_insert (charSigned : Bool) (bs : List Nat) (p c : Nat) :
    charsOf charSigned (bs.take p ++ c :: bs.drop p)
      = (charsOf charSigned bs).take p
        ++ charOfByte charSigned c :: (charsOf charSigned bs).drop p := by
  unfold charsOf
  rw [List.map_append, List.map_cons, List.map_take, List.map_drop]

theorem indexable_take (charSigned : Bool) (bs : List Nat) (j : Nat)
    (h : Indexable charSigned bs) : Indexable charSigned (bs.take j) :=
  fun b hb => h b (List.mem_of_mem_take hb)

theorem indexable_insert (charSigned : Bool) (bs : List Nat) (p c : Nat)
    (h : Indexable charSigned bs) (hc : c < 256 ∧ (charSigned = true → c < 128)) :
    Indexable charSigned (bs.take p ++ c :: bs.drop p) := by
  intro b hb
  rcases List.mem_append.1 hb with hb | hb
  · exact h b (List.mem_of_mem_take hb)
  · rcases List.mem_cons.1 hb with hb | hb
    · rw [hb]; exact hc
    · exact h b (List.mem_of_mem_drop hb)

/-- On strings of at most 64 and fewer than `2 ^ 31` characters the optimal score fits
an `int`. -/
theorem alignScore_fits_int (xs ys : List Int) (hn : xs.length ≤ 64)
    (hm : ys.length < 2 ^ 31) : -(2 ^ 31 : Int) < alignScore xs ys ∧ alignScore xs ys ≤ 0 := by
  have h1 := alignScore_lower xs ys
  have h2 := alignScore_nonpos xs ys
  have h3 : max xs.length ys.length < 2 ^ 31 := max_lt (by omega) hm
  constructor
  · have : ((max xs.length ys.length : Nat) : Int) < 2 ^ 31 := by exact_mod_cast h3
    omega
  · exact h2

theorem single_substitution_score (s1 s2 : List Int)
    (hlen : s1.length = s2.length) (hd : mismatches s1 s2 = 1) :
    alignScore s1 s2 = -1 := by
  have hge := alignScore_ge_neg_mismatches s1 s2 hlen
  have hle := alignScore_nonpos s1 s2
  have hne : alignScore s1 s2 ≠ 0 := by
    intro h0
    have e := alignScore_eq_zero s1 s2 h0
    rw [e, mismatches_self] at hd
    exact absurd hd (by decide)
  rw [hd] at hge
  omega

theorem single_insertion_score (s1 : List Int) (p : Nat) (c : Int) :
    alignScore s1 (s1.take p ++ c :: s1.drop p) = -1 := by
  have hge := alignScore_insert_ge c p s1
  have hle := alignScore_nonpos s1 (s1.take p ++ c :: s1.drop p)
  have hne : alignScore s1 (s1.take p ++ c :: s1.drop p) ≠ 0 := by
    intro h0
    have e := congrArg List.length (alignScore_eq_zero _ _ h0)
    rw [List.length_append, List.length_cons, List.length_take, List.length_drop] at e
    omega
  omega

/-! ## The properties of the score, for strings given by their bytes -/

/-- C1, the claim fails where `char` is signed: the byte `200` is the `char` value `-56`,
the table is indexed outside its 256 words, and no score is defined, for such a byte in
the first string and for such a byte in the second. -/
theorem score_signed_char_counterexample :
    ([200] : List Nat).length ≤ 64
      ∧ bitwise_alignment (charsOf true [200]) (charsOf true [65]) = none
      ∧ bitwise_alignment (charsOf true [65]) (charsOf true [200]) = none := by
  decide

/-- C1 as amended: for a first string of at most 64 bytes and a second string of fewer than
`2 ^ 31` bytes, all bytes in `0..255` and, where `char` is signed, in `0..127`,
`bitwise_alignment` returns the optimal global alignment score under match `0`, mismatch
`-1`, gap `-1` given by the cell-by-cell recurrence; that score is the negated Levenshtein
distance, and it fits an `int`. -/
theorem bitwise_alignment_correct (charSigned : Bool) (b1 b2 : List Nat)
    (hn : b1.length ≤ 64) (hm : b2.length < 2 ^ 31)
    (h1 : Indexable charSigned b1) (h2 : Indexable charSigned b2) :
    bitwise_alignment (charsOf charSigned b1) (charsOf charSigned b2)
        = some (alignScore (charsOf charSigned b1) (charsOf charSigned b2))
      ∧ alignScore (charsOf charSigned b1) (charsOf charSigned b2)
          = -((levenshtein Levenshtein.defaultCost (charsOf charSigned b1)
                (charsOf charSigned b2) : Nat) : Int)
      ∧ -(2 ^ 31 : Int) < alignScore (charsOf charSigned b1) (charsOf charSigned b2)
      ∧ alignScore (charsOf charSigned b1) (charsOf charSigned b2) ≤ 0 := by
  have hn' : (charsOf charSigned b1).length ≤ 64 := by rw [length_charsOf]; exact hn
  have hm' : (charsOf charSigned b2).length < 2 ^ 31 := by rw [length_charsOf]; exact hm
  exact ⟨bitwise_alignment_eq_alignScore _ _ hn' (valid_charsOf _ _ h1) (valid_charsOf _ _ h2),
    alignScore_eq_neg_levenshtein _ _, alignScore_fits_int _ _ hn' hm'⟩

theorem bitwise_alignment_correct_witness :
    ([71, 65, 84, 84, 65, 67, 65] : List Nat).length ≤ 64
      ∧ ([71, 67, 65, 84, 71, 67, 85, 78] : List Nat).length < 2 ^ 31
      ∧ Indexable true [71, 65, 84, 84, 65, 67, 65]
      ∧ Indexable true [71, 67, 65, 84, 71, 67, 85, 78]
      ∧ bitwise_alignment (charsOf true [71, 65, 84, 84, 65, 67, 65])
          (charsOf true [71, 67, 65, 84, 71, 67, 85, 78])
          = some (alignScore (charsOf true [71, 65, 84, 84, 65, 67, 65])
              (charsOf true [71, 67, 65, 84, 71, 67, 85, 78])) :=
  ⟨by decide, by decide, by decide, by decide,
    (bitwise_alignment_correct true [71, 65, 84, 84, 65, 67, 65]
      [71, 67, 65, 84, 71, 67, 85, 78] (by decide) (by decide) (by decide) (by decide)).1⟩

set_option maxRecDepth 100000 in
/-- C2, the claim fails: for the 65 characters made of 64 `A` and one `C` no error is
raised before the table is built: the table is built, it is the table of the 64 `A` alone
(the entry of `A` is all ones, the entry of `C` is zero, so the 65th character is ignored),
and the recursion loop runs on it. -/
theorem no_length_check_counterexample :
    64 < (List.replicate 64 65 ++ [67] : List Nat).length
      ∧ (encodeLoop (charsOf true (List.replicate 64 65 ++ [67])) calloc256 1).map
          (fun mv => (mv 65, mv 67)) = some (2 ^ 64 - 1, 0)
      ∧ (encodeLoop (charsOf true (List.replicate 64 65)) calloc256 1).map
          (fun mv => (mv 65, mv 67)) = some (2 ^ 64 - 1, 0)
      ∧ ((encodeLoop (charsOf true (List.replicate 64 65 ++ [67])) calloc256 1).bind
          (fun mv => recursionLoop mv (charsOf true [67, 65]) initDH)).isSome = true := by
  decide

/-- C2 as amended: there is no length check and no length error. For a first string of
more than 64 bytes (both strings shorter than `2 ^ 31`, bytes in `0..255` and, where `char`
is signed, in `0..127`) the match table is built, it is the table of the first 64
characters, and the recursion loop runs over the second string to its end. -/
theorem table_built_without_length_check (charSigned : Bool) (b1 b2 : List Nat)
    (hn : 64 < b1.length) (_hn : b1.length < 2 ^ 31) (_hm : b2.length < 2 ^ 31)
    (h1 : Indexable charSigned b1) (h2 : Indexable charSigned b2) :
    (b1.take 64).length = 64
      ∧ ∃ matchvec DH, encodeLoop (charsOf charSigned b1) calloc256 1 = some matchvec
          ∧ encodeLoop (charsOf charSigned (b1.take 64)) calloc256 1 = some matchvec
          ∧ recursionLoop matchvec (charsOf charSigned b2) initDH = some DH := by
  refine ⟨by rw [List.length_take]; omega, ?_⟩
  obtain ⟨mv, e, _⟩ := encodeLoop_table _ (valid_charsOf _ _ h1)
  obtain ⟨DH, e2, _⟩ := recursionLoop_partition mv _ initDH (valid_charsOf _ _ h2)
    initDH_partition
  refine ⟨mv, DH, e, ?_, e2⟩
  rw [charsOf_take, ← encodeLoop_take _ (valid_charsOf _ _ h1)]
  exact e

set_option maxRecDepth 100000 in
theorem table_built_without_length_check_witness :
    64 < (List.replicate 66 67 : List Nat).length
      ∧ (List.replicate 66 67 : List Nat).length < 2 ^ 31
      ∧ ([67, 71] : List Nat).length < 2 ^ 31
      ∧ Indexable true (List.replicate 66 67) ∧ Indexable true [67, 71]
      ∧ ∃ matchvec DH, encodeLoop (charsOf true (List.replicate 66 67)) calloc256 1
            = some matchvec
          ∧ encodeLoop (charsOf true ((List.replicate 66 67).take 64)) calloc256 1
            = some matchvec
          ∧ recursionLoop matchvec (charsOf true [67, 71]) initDH = some DH :=
  ⟨by decide, by decide, by decide, by decide, by decide,
    (table_built_without_length_check true (List.replicate 66 67) [67, 71] (by decide)
      (by decide) (by decide) (by decide) (by decide)).2⟩

/-- C3, the claim fails where `char` is signed: the one-byte sequence `200` has no score
against itself. -/
theorem self_signed_char_counterexample :
    ([200] : List Nat).length ≤ 64
      ∧ bitwise_alignment (charsOf true [200]) (charsOf true [200]) = none := by
  decide

/-- C3 as amended: a sequence of at most 64 bytes in `0..255` and, where `char` is signed,
in `0..127`, scores `0` against itself. -/
theorem bitwise_alignment_self (charSigned : Bool) (b : List Nat) (hn : b.length ≤ 64)
    (h : Indexable charSigned b) :
    bitwise_alignment (charsOf charSigned b) (charsOf charSigned b) = some 0 := by
  rw [bitwise_alignment_eq_alignScore _ _ (by rw [length_charsOf]; exact hn)
    (valid_charsOf _ _ h) (valid_charsOf _ _ h), alignScore_self]

theorem bitwise_alignment_self_witness :
    ([84, 65, 67, 71, 84, 84] : List Nat).length ≤ 64
      ∧ Indexable true [84, 65, 67, 71, 84, 84]
      ∧ bitwise_alignment (charsOf true [84, 65, 67, 71, 84, 84])
          (charsOf true [84, 65, 67, 71, 84, 84]) = some 0 :=
  ⟨by decide, by decide, bitwise_alignment_self true _ (by decide) (by decide)⟩

/-- C4, the claim fails where `char` is signed: the sequences `200 A` and `200 C` have the
same length `2` and differ in exactly one position, and have no score. -/
theorem substitution_signed_char_counterexample :
    (charsOf true [200, 65]).length = (charsOf true [200, 67]).length
      ∧ mismatches (charsOf true [200, 65]) (charsOf true [200, 67]) = 1
      ∧ bitwise_alignment (charsOf true [200, 65]) (charsOf true [200, 67]) = none := by
  decide

/-- C4 as amended: two sequences of the same length `n ≤ 64` that differ in exactly one
position (so `n ≥ 1`), with bytes in `0..255` and, where `char` is signed, in `0..127`,
score `-1`. -/
theorem bitwise_alignment_single_substitution (charSigned : Bool) (b1 b2 : List Nat)
    (hlen : b1.length = b2.length) (hn : b1.length ≤ 64)
    (hd : mismatches (charsOf charSigned b1) (charsOf charSigned b2) = 1)
    (h1 : Indexable charSigned b1) (h2 : Indexable charSigned b2) :
    bitwise_alignment (charsOf charSigned b1) (charsOf charSigned b2) = some (-1) := by
  rw [bitwise_alignment_eq_alignScore _ _ (by rw [length_charsOf]; exact hn)
    (valid_charsOf _ _ h1) (valid_charsOf _ _ h2),
    single_substitution_score _ _ (by rw [length_charsOf, length_charsOf]; exact hlen) hd]

theorem bitwise_alignment_single_substitution_witness :
    ([67, 65, 84, 71, 65] : List Nat).length = ([67, 65, 67, 71, 65] : List Nat).length
      ∧ ([67, 65, 84, 71, 65] : List Nat).length ≤ 64
      ∧ mismatches (charsOf true [67, 65, 84, 71, 65]) (charsOf true [67, 65, 67, 71, 65]) = 1
      ∧ Indexable true [67, 65, 84, 71, 65] ∧ Indexable true [67, 65, 67, 71, 65]
      ∧ bitwise_alignment (charsOf true [67, 65, 84, 71, 65])
          (charsOf true [67, 65, 67, 71, 65]) = some (-1) :=
  ⟨by decide, by decide, by decide, by decide, by decide,
    bitwise_alignment_single_substitution true _ _ (by decide) (by decide) (by decide)
      (by decide) (by decide)⟩

/-- C5, the claim fails where `char` is signed: inserting the byte `200` after the single
character `A` gives a sequence that has no score against `A`. -/
theorem insertion_signed_char_counterexample :
    ([65] : List Nat).length ≤ 64 ∧ 1 ≤ ([65] : List Nat).length
      ∧ bitwise_alignment (charsOf true [65])
          (charsOf true (([65] : List Nat).take 1 ++ 200 :: ([65] : List Nat).drop 1))
          = none := by
  decide

/-- C5 as amended: for a sequence `b1` of at most 64 bytes, inserting one byte `c` at any
position `p` (a position past the end appends `c`), all bytes in `0..255` and, where `char`
is signed, in `0..127`, gives a sequence that scores `-1` against `b1`. -/
theorem bitwise_alignment_single_insertion (charSigned : Bool) (b1 : List Nat) (p c : Nat)
    (hn : b1.length ≤ 64) (h1 : Indexable charSigned b1)
    (hc : c < 256 ∧ (charSigned = true → c < 128)) :
    bitwise_alignment (charsOf charSigned b1)
        (charsOf charSigned (b1.take p ++ c :: b1.drop p)) = some (-1) := by
  rw [bitwise_alignment_eq_alignScore _ _ (by rw [length_charsOf]; exact hn)
    (valid_charsOf _ _ h1) (valid_charsOf _ _ (indexable_insert _ _ p c h1 hc)),
    charsOf_insert, single_insertion_score]

theorem bitwise_alignment_single_insertion_witness :
    ([65, 67, 71, 84, 65] : List Nat).length ≤ 64
      ∧ Indexable true [65, 67, 71, 84, 65]
      ∧ ((84 : Nat) < 256 ∧ (true = true → (84 : Nat) < 128))
      ∧ bitwise_alignment (charsOf true [65, 67, 71, 84, 65])
          (charsOf true (([65, 67, 71, 84, 65] : List Nat).take 2
            ++ 84 :: ([65, 67, 71, 84, 65] : List Nat).drop 2)) = some (-1) :=
  ⟨by decide, by decide, by decide,
    bitwise_alignment_single_insertion true _ 2 84 (by decide) (by decide) (by decide)⟩

/-- C6, the claim fails where `char` is signed: with an empty first string and the
one-byte second string `200`, the lookup of that character indexes outside the table and
the result `-1` is not defined. -/
theorem nil_left_signed_char_counterexample :
    bitwise_alignment [] (charsOf true [200]) = none
      ∧ matchvecIndex (charOfByte true 200) = none := by
  decide

/-- C6 as amended: with an empty first string and a second string of `m < 2 ^ 31` bytes in
`0..255` and, where `char` is signed, in `0..127`, the match table stays all zero, the
extraction loop does not run, and the function returns the base value `-m`, which fits an
`int`. -/
theorem bitwise_alignment_nil_left (charSigned : Bool) (b2 : List Nat)
    (hm : b2.length < 2 ^ 31) (h2 : Indexable charSigned b2) :
    bitwise_alignment [] (charsOf charSigned b2) = some (-(b2.length : Int))
      ∧ -(2 ^ 31 : Int) < -(b2.length : Int)
      ∧ encodeLoop [] calloc256 1 = some calloc256
      ∧ (∀ k, calloc256 k = 0)
      ∧ ∀ (DH : DeltaState) (score : Int),
          scoreLoop DH.zero DH.pos1 0 ([] : List Int).length 0 1 score = score := by
  refine ⟨?_, ?_, rfl, fun _ => rfl, fun _ _ => rfl⟩
  · rw [bitwise_alignment_eq_alignScore [] _ (by decide) (by simp) (valid_charsOf _ _ h2),
      alignScore_nil_left, length_charsOf]
  · have : ((b2.length : Nat) : Int) < 2 ^ 31 := by exact_mod_cast hm
    omega

theorem bitwise_alignment_nil_left_witness :
    ([71, 71, 78, 65] : List Nat).length < 2 ^ 31
      ∧ Indexable true [71, 71, 78, 65]
      ∧ bitwise_alignment [] (charsOf true [71, 71, 78, 65])
          = some (-(([71, 71, 78, 65] : List Nat).length : Int)) :=
  ⟨by decide, by decide, (bitwise_alignment_nil_left true _ (by decide) (by decide)).1⟩

/-- C7, the claim fails where `char` is signed: for the one-byte first string `200` and an
empty second string the encoding loop indexes outside the table and `-1` is not
returned. -/
theorem nil_right_signed_char_counterexample :
    ([200] : List Nat).length ≤ 64
      ∧ bitwise_alignment (charsOf true [200]) [] = none := by
  decide

/-- C7 as amended: with a first string of `n ≤ 64` bytes in `0..255` and, where `char` is
signed, in `0..127`, and an empty second string, the recursion loop does not run, the
horizontal state keeps its initial value `(pos1, zero, neg1) = (0, 0, all_ones)`, each of
the `n` positions decodes to `-1`, and the function returns `-n`. -/
theorem bitwise_alignment_nil_right (charSigned : Bool) (b1 : List Nat)
    (hn : b1.length ≤ 64) (h1 : Indexable charSigned b1) :
    bitwise_alignment (charsOf charSigned b1) [] = some (-(b1.length : Int))
      ∧ (∀ mv, recursionLoop mv [] initDH = some initDH)
      ∧ initDH = { pos1 := 0, zero := 0, neg1 := all_ones }
      ∧ ∀ i, i < b1.length → delta initDH i = -1 := by
  refine ⟨?_, fun _ => rfl, rfl, ?_⟩
  · rw [bitwise_alignment_eq_alignScore _ [] (by rw [length_charsOf]; exact hn)
      (valid_charsOf _ _ h1) (by simp), alignScore_nil_right, length_charsOf]
  · intro i _
    show dec ((0 : Nat).testBit i) ((0 : Nat).testBit i) = -1
    rw [Nat.zero_testBit]
    rfl

theorem bitwise_alignment_nil_right_witness :
    ([84, 71, 78, 65] : List Nat).length ≤ 64
      ∧ Indexable true [84, 71, 78, 65]
      ∧ bitwise_alignment (charsOf true [84, 71, 78, 65]) []
          = some (-(([84, 71, 78, 65] : List Nat).length : Int)) :=
  ⟨by decide, by decide, (bitwise_alignment_nil_right true _ (by decide) (by decide)).1⟩

/-! ## The table, the run and the deltas, for strings given by their bytes -/

/-- C11, the claim fails where `char` is signed: for the one-byte first string `200` the
encoding loop indexes outside the table, so no bit is set in the entry of the symbol `200`
and no table is defined. -/
theorem table_signed_char_counterexample :
    ([200] : List Nat).length ≤ 64
      ∧ matchvecIndex (charOfByte true 200) = none
      ∧ (encodeLoop (charsOf true [200]) calloc256 1).isSome = false := by
  decide

/-- C11 as amended: for a first string of `n ≤ 64` bytes in `0..255` and, where `char` is
signed, in `0..127`, the table built by the encoding loop has, for every symbol `s` in
`0..255` and every bit position `i` in `0..63`, bit `i` of the entry of `s` set exactly
when `i < n` and the byte at position `i` is `s` (bit `0` is the first character); the
entry of a symbol that does not occur in the string is zero. -/
theorem matchvec_bit_iff (charSigned : Bool) (b1 : List Nat) (_hn : b1.length ≤ 64)
    (h1 : Indexable charSigned b1) :
    ∃ matchvec, encodeLoop (charsOf charSigned b1) calloc256 1 = some matchvec
      ∧ (∀ s i : Nat, s < 256 → i < 64 →
          ((matchvec s).testBit i = true ↔ i < b1.length ∧ b1[i]? = some s))
      ∧ ∀ s : Nat, s < 256 → s ∉ b1 → matchvec s = 0 := by
  obtain ⟨mv, e, hmv⟩ := encodeLoop_table _ (valid_charsOf _ _ h1)
  refine ⟨mv, e, ?_, ?_⟩
  · intro s i _ hi
    rw [hmv s i]
    simp only [hi, decide_True, Bool.true_and, decide_eq_true_eq,
      charsOf_getElem? charSigned b1 h1]
    constructor
    · intro hs
      refine ⟨?_, hs⟩
      by_contra hlt
      rw [List.getElem?_eq_none (by omega)] at hs
      exact absurd hs (by simp)
    · exact fun hs => hs.2
  · intro s _ hs
    apply Nat.eq_of_testBit_eq
    intro i
    rw [hmv s i, Nat.zero_testBit]
    have : ¬ (charsOf charSigned b1)[i]? = some (s : Int) :=
      fun hget => hs ((mem_charsOf charSigned b1 h1 s).1 (List.getElem?_mem hget))
    simp [this]

theorem matchvec_bit_iff_witness :
    ([71, 65, 84, 84, 65] : List Nat).length ≤ 64
      ∧ Indexable true [71, 65, 84, 84, 65]
      ∧ ∃ matchvec, encodeLoop (charsOf true [71, 65, 84, 84, 65]) calloc256 1 = some matchvec
          ∧ (∀ s i : Nat, s < 256 → i < 64 →
              ((matchvec s).testBit i = true
                ↔ i < ([71, 65, 84, 84, 65] : List Nat).length
                  ∧ ([71, 65, 84, 84, 65] : List Nat)[i]? = some s))
          ∧ ∀ s : Nat, s < 256 → s ∉ ([71, 65, 84, 84, 65] : List Nat) → matchvec s = 0 :=
  ⟨by decide, by decide, matchvec_bit_iff true _ (by decide) (by decide)⟩

/-- C14, the claim fails where `char` is signed: for the one-byte second string `200` the
recursion loop looks the character up outside the table and holds no state, while the run
of the specification on the symbol `200` is defined. -/
theorem run_signed_char_counterexample :
    recursionLoop calloc256 (charsOf true [200]) initDH = none
      ∧ specRun calloc256 [200] = specStep specInit (calloc256 200) := by
  decide

/-- C14 as amended: for every match table and every second string of fewer than `2 ^ 31`
bytes in `0..255` and, where `char` is signed, in `0..127`, the horizontal state held after
the recursion loop is `run(matchTable, seq2)` of the specification, the left-to-right fold
of its step over the bytes from `(0, 0, all ones)`; one iteration of the loop is that step.
The assignment to `RemainDHneg1` is dead: without it the loop holds the same state and the
function returns the same result. -/
theorem recursionLoop_refines_specRun (charSigned : Bool) (matchTable : Matchvec)
    (b2 : List Nat) (_hm : b2.length < 2 ^ 31) (h2 : Indexable charSigned b2) :
    recursionLoop matchTable (charsOf charSigned b2) initDH = some (specRun matchTable b2)
      ∧ (∀ DH M, recursionStep DH M = specStep DH M)
      ∧ initDH = specInit
      ∧ (∀ r DH, recursionLoopNoRemain r matchTable (charsOf charSigned b2) DH
          = recursionLoop matchTable (charsOf charSigned b2) DH)
      ∧ ∀ r s1, bitwise_alignmentNoRemain r s1 (charsOf charSigned b2)
          = bitwise_alignment s1 (charsOf charSigned b2) := by
  refine ⟨?_, recursionStep_eq_specStep, rfl,
    fun r DH => recursionLoopNoRemain_eq r matchTable _ DH,
    fun r s1 => bitwise_alignmentNoRemain_eq r s1 _⟩
  have e := recursionLoop_eq_foldl matchTable (charsOf charSigned b2) initDH
    (valid_charsOf _ _ h2)
  rw [charsOf_toNat charSigned b2 h2] at e
  exact e

theorem recursionLoop_refines_specRun_witness :
    ([71, 67, 65, 84] : List Nat).length < 2 ^ 31
      ∧ Indexable true [71, 67, 65, 84]
      ∧ recursionLoop (fun s => 3 * s + 1) (charsOf true [71, 67, 65, 84]) initDH
          = some (specRun (fun s => 3 * s + 1) [71, 67, 65, 84]) :=
  ⟨by decide, by decide,
    (recursionLoop_refines_specRun true (fun s => 3 * s + 1) [71, 67, 65, 84] (by decide)
      (by decide)).1⟩

/-- C15, the claim fails where `char` is signed: for the first string `A` and the
second string `200` the table is built, but the first iteration of the recursion loop
indexes outside it, so there is no state after `j = 1` iterations. -/
theorem horizontal_signed_char_counterexample :
    ([65] : List Nat).length ≤ 64 ∧ 1 ≤ ([200] : List Nat).length
      ∧ (encodeLoop (charsOf true [65]) calloc256 1).isSome = true
      ∧ (encodeLoop (charsOf true [65]) calloc256 1).bind
          (fun mv => recursionLoop mv ((charsOf true [200]).take 1) initDH) = none := by
  decide

/-- C15 as amended: with `S(i, j)` the optimal score of the first `i` characters of the
first string against the first `j` characters of the second, for a first string of
`n ≤ 64` bytes and a second string of `m < 2 ^ 31` bytes, all in `0..255` and, where `char`
is signed, in `0..127`, for every `j ≤ m` and every `i < n` the state after `j` iterations
of the recursion loop exists, is a partition of the all-ones word, and the delta decoded at
its bit `i` is `S(i + 1, j) - S(i, j)`. -/
theorem horizontal_state_deltas (charSigned : Bool) (b1 b2 : List Nat)
    (hn : b1.length ≤ 64) (_hm : b2.length < 2 ^ 31)
    (h1 : Indexable charSigned b1) (h2 : Indexable charSigned b2) :
    ∃ matchvec, encodeLoop (charsOf charSigned b1) calloc256 1 = some matchvec
      ∧ ∀ j, j ≤ b2.length →
          ∃ DHj, recursionLoop matchvec ((charsOf charSigned b2).take j) initDH = some DHj
            ∧ Partition DHj
            ∧ ∀ i, i < b1.length →
                delta DHj i
                  = alignScore ((charsOf charSigned b1).take (i + 1))
                      ((charsOf charSigned b2).take j)
                    - alignScore ((charsOf charSigned b1).take i)
                        ((charsOf charSigned b2).take j) := by
  have hn' : (charsOf charSigned b1).length ≤ 64 := by rw [length_charsOf]; exact hn
  obtain ⟨mv, e, hmv⟩ := encodeLoop_matches _ hn' (valid_charsOf _ _ h1)
  refine ⟨mv, e, fun j _ => ?_⟩
  obtain ⟨DHj, ej, hP, hD⟩ := rowInv_after _ _ hn' mv hmv (valid_charsOf _ _ h2) j
  exact ⟨DHj, ej, hP, fun i hi => hD i (by rw [length_charsOf]; exact hi)⟩

theorem horizontal_state_deltas_witness :
    ([71, 65, 84, 84] : List Nat).length ≤ 64
      ∧ ([71, 67, 84] : List Nat).length < 2 ^ 31
      ∧ Indexable true [71, 65, 84, 84] ∧ Indexable true [71, 67, 84]
      ∧ ∃ matchvec, encodeLoop (charsOf true [71, 65, 84, 84]) calloc256 1 = some matchvec
          ∧ ∀ j, j ≤ ([71, 67, 84] : List Nat).length →
              ∃ DHj, recursionLoop matchvec ((charsOf true [71, 67, 84]).take j) initDH
                  = some DHj
                ∧ Partition DHj
                ∧ ∀ i, i < ([71, 65, 84, 84] : List Nat).length →
                    delta DHj i
                      = alignScore ((charsOf true [71, 65, 84, 84]).take (i + 1))
                          ((charsOf true [71, 67, 84]).take j)
                        - alignScore ((charsOf true [71, 65, 84, 84]).take i)
                            ((charsOf true [71, 67, 84]).take j) :=
  ⟨by decide, by decide, by decide, by decide,
    horizontal_state_deltas true _ _ (by decide) (by decide) (by decide) (by decide)⟩

/-- C16, the claim fails where `char` is signed: for the first string `A` and the
second string `200`, the first iteration of the recursion loop reads its match word
outside the table, so its vertical state is not defined. -/
theorem vertical_signed_char_counterexample :
    ([65] : List Nat).length ≤ 64 ∧ 0 < ([200] : List Nat).length
      ∧ (encodeLoop (charsOf true [65]) calloc256 1).isSome = true
      ∧ (charsOf true [200])[0]? = some (-56)
      ∧ matchvecIndex (-56) = none
      ∧ (encodeLoop (charsOf true [65]) calloc256 1).bind
          (fun mv => recursionLoop mv (charsOf true [200]) initDH) = none := by
  decide

/-- C16 as amended: with `S(i, j)` as in C15 and strings as in C15, in the iteration of
the recursion loop that reads the character at position `j` of the second string (the
iteration `j + 1`), the delta decoded at bit `i` of the vertical state
`(DVpos1shift, DVzeroshift, DVneg1shift)` is `S(i, j + 1) - S(i, j)` for every
`i ≤ min n 63`; bit `0` decodes to `-1`. -/
theorem vertical_state_deltas (charSigned : Bool) (b1 b2 : List Nat)
    (hn : b1.length ≤ 64) (_hm : b2.length < 2 ^ 31)
    (h1 : Indexable charSigned b1) (h2 : Indexable charSigned b2) :
    ∃ matchvec, encodeLoop (charsOf charSigned b1) calloc256 1 = some matchvec
      ∧ ∀ j, j < b2.length →
          ∃ DHj c k, recursionLoop matchvec ((charsOf charSigned b2).take j) initDH
              = some DHj
            ∧ (charsOf charSigned b2)[j]? = some c ∧ matchvecIndex c = some k
            ∧ (∀ i, i ≤ min b1.length 63 →
                delta (verticalState DHj (matchvec k)) i
                  = alignScore ((charsOf charSigned b1).take i)
                      ((charsOf charSigned b2).take (j + 1))
                    - alignScore ((charsOf charSigned b1).take i)
                        ((charsOf charSigned b2).take j))
            ∧ delta (verticalState DHj (matchvec k)) 0 = -1 := by
  have hn' : (charsOf charSigned b1).length ≤ 64 := by rw [length_charsOf]; exact hn
  have hv2 := valid_charsOf _ _ h2
  obtain ⟨mv, e, hmv⟩ := encodeLoop_matches _ hn' (valid_charsOf _ _ h1)
  refine ⟨mv, e, fun j hj => ?_⟩
  have hj' : j < (charsOf charSigned b2).length := by rw [length_charsOf]; exact hj
  obtain ⟨DHj, ej, hP, hD⟩ := rowInv_after _ _ hn' mv hmv hv2 j
  have hget : (charsOf charSigned b2)[j]? = some (charsOf charSigned b2)[j] :=
    List.getElem?_eq_getElem hj'
  have hc : ValidChar (charsOf charSigned b2)[j] := hv2 _ (List.getElem?_mem hget)
  have ht : (charsOf charSigned b2).take (j + 1)
      = (charsOf charSigned b2).take j ++ [(charsOf charSigned b2)[j]] := by
    rw [List.take_succ, hget]; rfl
  have hV := vertical_delta (charsOf charSigned b1) ((charsOf charSigned b2).take j)
    (charsOf charSigned b2)[j] DHj (mv (charsOf charSigned b2)[j].toNat) hP (hmv _ hc) hD
  refine ⟨DHj, (charsOf charSigned b2)[j], (charsOf charSigned b2)[j].toNat, ej, hget,
    matchvecIndex_of_valid hc, ?_, ?_⟩
  · intro i hi
    rw [ht]
    exact hV i (by rw [length_charsOf]; exact le_trans hi (Nat.min_le_left _ _))
      (Nat.lt_succ_of_le (le_trans hi (Nat.min_le_right _ _)))
  · show dec ((loopBody DHj (mv (charsOf charSigned b2)[j].toNat)).DVpos1shift.testBit 0)
      ((loopBody DHj (mv (charsOf charSigned b2)[j].toNat)).DVzeroshift.testBit 0) = -1
    rw [DVpos1shift_zero, DVzeroshift_zero]
    rfl

theorem vertical_state_deltas_witness :
    ([71, 65, 84, 84] : List Nat).length ≤ 64
      ∧ ([71, 67, 84] : List Nat).length < 2 ^ 31
      ∧ Indexable true [71, 65, 84, 84] ∧ Indexable true [71, 67, 84]
      ∧ ∃ matchvec, encodeLoop (charsOf true [71, 65, 84, 84]) calloc256 1 = some matchvec
          ∧ ∀ j, j < ([71, 67, 84] : List Nat).length →
              ∃ DHj c k, recursionLoop matchvec ((charsOf true [71, 67, 84]).take j) initDH
                  = some DHj
                ∧ (charsOf true [71, 67, 84])[j]? = some c ∧ matchvecIndex c = some k
                ∧ (∀ i, i ≤ min ([71, 65, 84, 84] : List Nat).length 63 →
                    delta (verticalState DHj (matchvec k)) i
                      = alignScore ((charsOf true [71, 65, 84, 84]).take i)
                          ((charsOf true [71, 67, 84]).take (j + 1))
                        - alignScore ((charsOf true [71, 65, 84, 84]).take i)
                            ((charsOf true [71, 67, 84]).take j))
                ∧ delta (verticalState DHj (matchvec k)) 0 = -1 :=
  ⟨by decide, by decide, by decide, by decide,
    vertical_state_deltas true _ _ (by decide) (by decide) (by decide) (by decide)⟩

/-- C19, the claim fails where `char` is signed: for the sequences `200` and `A`, both of
length `1`, neither order of the arguments returns a score. -/
theorem symm_signed_char_counterexample :
    ([200] : List Nat).length ≤ 64 ∧ ([65] : List Nat).length ≤ 64
      ∧ bitwise_alignment (charsOf true [200]) (charsOf true [65]) = none
      ∧ bitwise_alignment (charsOf true [65]) (charsOf true [200]) = none := by
  decide

/-- C19 as amended: for two sequences that both have at most 64 bytes in `0..255` and,
where `char` is signed, in `0..127`, the function returns a score, and the same one
whichever of them is the first argument. -/
theorem bitwise_alignment_symm (charSigned : Bool) (a b : List Nat)
    (ha : a.length ≤ 64) (hb : b.length ≤ 64)
    (h1 : Indexable charSigned a) (h2 : Indexable charSigned b) :
    ∃ v, bitwise_alignment (charsOf charSigned a) (charsOf charSigned b) = some v
      ∧ bitwise_alignment (charsOf charSigned b) (charsOf charSigned a) = some v := by
  refine ⟨alignScore (charsOf charSigned a) (charsOf charSigned b), ?_, ?_⟩
  · exact bitwise_alignment_eq_alignScore _ _ (by rw [length_charsOf]; exact ha)
      (valid_charsOf _ _ h1) (valid_charsOf _ _ h2)
  · rw [alignScore_symm]
    exact bitwise_alignment_eq_alignScore _ _ (by rw [length_charsOf]; exact hb)
      (valid_charsOf _ _ h2) (valid_charsOf _ _ h1)

theorem bitwise_alignment_symm_witness :
    ([71, 65, 84, 84, 65, 67, 65] : List Nat).length ≤ 64
      ∧ ([67, 65, 84] : List Nat).length ≤ 64
      ∧ Indexable true [71, 65, 84, 84, 65, 67, 65] ∧ Indexable true [67, 65, 84]
      ∧ ∃ v, bitwise_alignment (charsOf true [71, 65, 84, 84, 65, 67, 65])
            (charsOf true [67, 65, 84]) = some v
          ∧ bitwise_alignment (charsOf true [67, 65, 84])
            (charsOf true [71, 65, 84, 84, 65, 67, 65]) = some v :=
  ⟨by decide, by decide, by decide, by decide,
    bitwise_alignment_symm true _ _ (by decide) (by decide) (by decide) (by decide)⟩

/-- C20, the claim fails where `char` is signed: for the first string `A 200` and the
second string `A` no score is returned, so none within the bounds. -/
theorem bounds_signed_char_counterexample :
    ([65, 200] : List Nat).length ≤ 64
      ∧ bitwise_alignment (charsOf true [65, 200]) (charsOf true [65]) = none := by
  decide

/-- C20 as amended: for a first string of `n ≤ 64` bytes and a second string of
`m < 2 ^ 31` bytes, all in `0..255` and, where `char` is signed, in `0..127`, the function
returns a score `v` with `-max(n, m) ≤ v ≤ -|n - m|`; in particular `v ≤ 0`, and `v` fits
an `int`. -/
theorem bitwise_alignment_bounds (charSigned : Bool) (b1 b2 : List Nat)
    (hn : b1.length ≤ 64) (hm : b2.length < 2 ^ 31)
    (h1 : Indexable charSigned b1) (h2 : Indexable charSigned b2) :
    ∃ v, bitwise_alignment (charsOf charSigned b1) (charsOf charSigned b2) = some v
      ∧ -((max b1.length b2.length : Nat) : Int) ≤ v
      ∧ v ≤ -|(b1.length : Int) - (b2.length : Int)|
      ∧ v ≤ 0
      ∧ -(2 ^ 31 : Int) < v := by
  have hn' : (charsOf charSigned b1).length ≤ 64 := by rw [length_charsOf]; exact hn
  have hm' : (charsOf charSigned b2).length < 2 ^ 31 := by rw [length_charsOf]; exact hm
  have hl := alignScore_lower (charsOf charSigned b1) (charsOf charSigned b2)
  obtain ⟨u1, u2⟩ := alignScore_upper (charsOf charSigned b1) (charsOf charSigned b2)
  rw [length_charsOf, length_charsOf] at hl u1 u2
  refine ⟨alignScore (charsOf charSigned b1) (charsOf charSigned b2),
    bitwise_alignment_eq_alignScore _ _ hn' (valid_charsOf _ _ h1) (valid_charsOf _ _ h2),
    hl, ?_, alignScore_nonpos _ _, (alignScore_fits_int _ _ hn' hm').1⟩
  rcases abs_cases ((b1.length : Int) - (b2.length : Int)) with h | h <;> omega

theorem bitwise_alignment_bounds_witness :
    ([71, 65, 84, 84, 65, 67, 65] : List Nat).length ≤ 64
      ∧ ([67, 65, 84] : List Nat).length < 2 ^ 31
      ∧ Indexable true [71, 65, 84, 84, 65, 67, 65] ∧ Indexable true [67, 65, 84]
      ∧ ∃ v, bitwise_alignment (charsOf true [71, 65, 84, 84, 65, 67, 65])
            (charsOf true [67, 65, 84]) = some v
          ∧ -((max ([71, 65, 84, 84, 65, 67, 65] : List Nat).length
                ([67, 65, 84] : List Nat).length : Nat) : Int) ≤ v
          ∧ v ≤ -|(([71, 65, 84, 84, 65, 67, 65] : List Nat).length : Int)
                - (([67, 65, 84] : List Nat).length : Int)|
          ∧ v ≤ 0
          ∧ -(2 ^ 31 : Int) < v :=
  ⟨by decide, by decide, by decide, by decide,
    bitwise_alignment_bounds true _ _ (by decide) (by decide) (by decide) (by decide)⟩

end BitPAl
